import Mathlib

/-!
Shallow embedding of the bx string utilities (`src/string.cpp`) and proofs of
their properties.

A `char` is embedded as its integer value (`Int`); the only arithmetic the
source does on a `char` is the case shift by `0x20` on a letter, which never
leaves the `char` range.  A buffer is the finite list of the bytes the pointer
refers to; a pointer into it is a `Nat` offset and `NULL` is `none`.  An access
outside the buffer is undefined behaviour in C and is the fault `Fault.oob`
here, so every embedded function is total.  A `size_t` decrement wraps from
zero to `2 ^ 64 - 1`.
-/

namespace bx

/-- Ways in which a call can fail to produce a value. -/
inductive Fault where
  /-- A read or write outside the buffer (undefined behaviour in C). -/
  | oob
  /-- A failed `BX_CHECK` contract check. -/
  | contract
  /-- Signed integer overflow (undefined behaviour in C). -/
  | overflow
  /-- The iteration budget that the embedding gives to a loop ran out. -/
  | fuel
  deriving DecidableEq, Repr

/-- Result of running embedded code: a value, or a fault. -/
inductive Outcome (α : Type) where
  | ok (a : α)
  | fault (f : Fault)
  deriving DecidableEq, Repr

namespace Outcome

/-- Sequencing: a fault aborts the rest of the computation. -/
def bind {α β : Type} (x : Outcome α) (f : α → Outcome β) : Outcome β :=
  match x with
  | ok a => f a
  | fault e => fault e

instance : Monad Outcome where
  pure := Outcome.ok
  bind := Outcome.bind

end Outcome

open Outcome

/-- Modelled from the spec: the default value of an omitted bound argument,
declared in the header `bx/string.h` which is absent from the sources
("absence of an explicit bound means scan until a terminating zero byte");
it is `size_t(-1)`, the largest `size_t` (64-bit target). -/
def SIZE_MAX : Nat := 2 ^ 64 - 1

/-- The `size_t` decrement `--x` (and `x - 1`): zero wraps to the largest `size_t`. -/
def decSize (x : Nat) : Nat := if x = 0 then SIZE_MAX else x - 1

/-- Read the byte at offset `i` of a buffer (`buf[i]`, `*(buf + i)`). -/
def rd (buf : List Int) (i : Nat) : Outcome Int :=
  match buf[i]? with
  | some c => ok c
  | none => fault Fault.oob

/-- Write the byte at offset `i` of a buffer (`buf[i] = c`). -/
def wr (buf : List Int) (i : Nat) (c : Int) : Outcome (List Int) :=
  if i < buf.length then ok (buf.set i c) else fault Fault.oob

/-- `bool isSpace(char _ch)`: space, `\t`, `\n`, `\v`, `\f`, `\r`. -/
def isSpace (ch : Int) : Bool :=
  32 == ch || 9 == ch || 10 == ch || 11 == ch || 12 == ch || 13 == ch

/-- `bool isUpper(char _ch)`: `_ch >= 'A' && _ch <= 'Z'`. -/
def isUpper (ch : Int) : Bool := decide (ch ≥ 65) && decide (ch ≤ 90)

/-- `bool isLower(char _ch)`: `_ch >= 'a' && _ch <= 'z'`. -/
def isLower (ch : Int) : Bool := decide (ch ≥ 97) && decide (ch ≤ 122)

/-- `bool isAlpha(char _ch)`. -/
def isAlpha (ch : Int) : Bool := isLower ch || isUpper ch

/-- `bool isNumeric(char _ch)`: `_ch >= '0' && _ch <= '9'`. -/
def isNumeric (ch : Int) : Bool := decide (ch ≥ 48) && decide (ch ≤ 57)

/-- `bool isAlphaNum(char _ch)`. -/
def isAlphaNum (ch : Int) : Bool := isAlpha ch || isNumeric ch

/-- `char toLower(char _ch)`: `_ch + (isUpper(_ch) ? 0x20 : 0)`. -/
def toLower (ch : Int) : Int := ch + (if isUpper ch then 0x20 else 0)

/-- `char toUpper(char _ch)`: `_ch - (isLower(_ch) ? 0x20 : 0)`. -/
def toUpper (ch : Int) : Int := ch - (if isLower ch then 0x20 else 0)

/-- Loop of `strncmp`:
`for (; 0 < _max && *_lhs == *_rhs; ++_lhs, ++_rhs, --_max) { if (*_lhs == '\0' || *_rhs == '\0') break; }`.
The first argument is `_max`, the second the common offset of `_lhs` and `_rhs`;
the result is the offset and the value of `_max` when the loop is left. -/
def strncmpLoop (lhs rhs : List Int) : Nat → Nat → Outcome (Nat × Nat)
  | 0, p => ok (p, 0)
  | max + 1, p => do
    let a ← rd lhs p
    let b ← rd rhs p
    if a = b then
      if a = 0 ∨ b = 0 then ok (p, max + 1)
      else strncmpLoop lhs rhs max (p + 1)
    else ok (p, max + 1)

/-- `int32_t strncmp(const char* _lhs, const char* _rhs, size_t _max)`;
the value returned is `0 == _max ? 0 : *_lhs - *_rhs`. -/
def strncmp (lhs rhs : List Int) (max : Nat) : Outcome Int := do
  let (p, m) ← strncmpLoop lhs rhs max 0
  if 0 = m then ok 0
  else do
    let a ← rd lhs p
    let b ← rd rhs p
    ok (a - b)

/-- Loop of `strincmp`: as in `strncmp`, the loop condition comparing
`toLower(*_lhs) == toLower(*_rhs)`. -/
def strincmpLoop (lhs rhs : List Int) : Nat → Nat → Outcome (Nat × Nat)
  | 0, p => ok (p, 0)
  | max + 1, p => do
    let a ← rd lhs p
    let b ← rd rhs p
    if toLower a = toLower b then
      if a = 0 ∨ b = 0 then ok (p, max + 1)
      else strincmpLoop lhs rhs max (p + 1)
    else ok (p, max + 1)

/-- `int32_t strincmp(const char* _lhs, const char* _rhs, size_t _max)`;
the value returned is `0 == _max ? 0 : *_lhs - *_rhs`. -/
def strincmp (lhs rhs : List Int) (max : Nat) : Outcome Int := do
  let (p, m) ← strincmpLoop lhs rhs max 0
  if 0 = m then ok 0
  else do
    let a ← rd lhs p
    let b ← rd rhs p
    ok (a - b)

/-- Loop of `strnlen`: `for (ptr = _str; 0 < _max && *ptr != '\0'; ++ptr, --_max)`.
The first argument is `_max`, the second the offset `ptr - _str`. -/
def strnlenLoop (str : List Int) : Nat → Nat → Outcome Nat
  | 0, ptr => ok ptr
  | max + 1, ptr => do
    let c ← rd str ptr
    if c ≠ 0 then strnlenLoop str max (ptr + 1) else ok ptr

/-- `size_t strnlen(const char* _str, size_t _max)`. -/
def strnlen (str : List Int) (max : Nat) : Outcome Nat :=
  strnlenLoop str max 0

/-- Modelled from the spec: the contract-check macro `BX_CHECK`, defined in a
header absent from the sources ("precondition violations are signaled via an
assertion/contract-check facility"); a violated check is the fault
`Fault.contract`. -/
def BX_CHECK (cond : Bool) : Outcome Unit :=
  if cond then ok () else fault Fault.contract

/-- The library call `memcpy(_dst, _src, n)`: the bytes `0 .. n-1` of `src` are
written to the same offsets of `dst`, in ascending order. -/
def memcpy (dst src : List Int) : Nat → Outcome (List Int)
  | 0 => ok dst
  | n + 1 => do
    let d ← memcpy dst src n
    let c ← rd src n
    wr d n c

/-- `size_t strlncpy(char* _dst, size_t _dstSize, const char* _src, size_t _num)`:
the result is the destination buffer after the call and the value returned.
The two pointer checks hold of any buffer of the embedding. -/
def strlncpy (dst : List Int) (dstSize : Nat) (src : List Int) (num : Nat) :
    Outcome (List Int × Nat) := do
  BX_CHECK (decide (0 < dstSize))
  let len ← strnlen src num
  let max := decSize dstSize
  let n := if len < max then len else max
  let dst1 ← memcpy dst src n
  let dst2 ← wr dst1 n 0
  ok (dst2, n)

/-- Loop of `strnrchr`: `for (size_t ii = ...; 0 < ii; --ii) { if (_str[ii] == _ch) return &_str[ii]; }`
followed by `return NULL`. The argument is `ii`. -/
def strnrchrLoop (str : List Int) (ch : Int) : Nat → Outcome (Option Nat)
  | 0 => ok none
  | ii + 1 => do
    let c ← rd str (ii + 1)
    if c = ch then ok (some (ii + 1)) else strnrchrLoop str ch ii

/-- `const char* strnrchr(const char* _str, char _ch, size_t _max)`. -/
def strnrchr (str : List Int) (ch : Int) (max : Nat) : Outcome (Option Nat) := do
  let len ← strnlen str max
  strnrchrLoop str ch len

/-- Inner loop "find start of the string" of `strnstr`:
`while (*ptr != *_find) { ++ptr; --stringLen; if (findLen > stringLen) return NULL; }`.
Arguments: iteration budget, `ptr`, `stringLen`. The result is `none` when the
function returns `NULL` from inside the loop, else the values of `ptr` and
`stringLen` when the loop is left. -/
def strnstrSkip (str find : List Int) (findLen : Nat) :
    Nat → Nat → Nat → Outcome (Option (Nat × Nat))
  | 0, _, _ => fault Fault.fuel
  | fuel + 1, ptr, stringLen => do
    let c ← rd str ptr
    let f ← rd find 0
    if c ≠ f then
      let ptr1 := ptr + 1
      let stringLen1 := decSize stringLen
      if findLen > stringLen1 then ok none
      else strnstrSkip str find findLen fuel ptr1 stringLen1
    else ok (some (ptr, stringLen))

/-- Inner loop "start comparing" of `strnstr`:
`while (*string++ == *search++) { if ('\0' == *search) return ptr; }`.
Arguments: iteration budget, `string`, `search` (offsets into `str` and `find`).
The result is `true` when the function returns `ptr` from inside the loop and
`false` when the loop is left. -/
def strnstrCompare (str find : List Int) : Nat → Nat → Nat → Outcome Bool
  | 0, _, _ => fault Fault.fuel
  | fuel + 1, string, search => do
    let a ← rd str string
    let b ← rd find search
    if a = b then do
      let e ← rd find (search + 1)
      if 0 = e then ok true
      else strnstrCompare str find fuel (string + 1) (search + 1)
    else ok false

/-- Outer loop of `strnstr`: `for (; stringLen >= findLen; ++ptr, --stringLen) { ... }`
followed by `return NULL`. Arguments: iteration budget, `ptr`, `stringLen`. -/
def strnstrLoop (str find : List Int) (findLen : Nat) :
    Nat → Nat → Nat → Outcome (Option Nat)
  | 0, _, _ => fault Fault.fuel
  | fuel + 1, ptr, stringLen =>
    if stringLen ≥ findLen then do
      let r ← strnstrSkip str find findLen (str.length + 1) ptr stringLen
      match r with
      | none => ok none
      | some (ptr1, stringLen1) => do
        let found ← strnstrCompare str find (find.length + 1) ptr1 0
        if found then ok (some ptr1)
        else strnstrLoop str find findLen fuel (ptr1 + 1) (decSize stringLen1)
    else ok none

/-- `const char* strnstr(const char* _str, const char* _find, size_t _max)`;
`findLen` is `strnlen(_find)` with the default bound. Every iteration of a
loop reads `str` or `find` at an offset that grows by one, so the budgets
given here are never used up (`strnstr_ne_fuel`). -/
def strnstr (str find : List Int) (max : Nat) : Outcome (Option Nat) := do
  let stringLen ← strnlen str max
  let findLen ← strnlen find SIZE_MAX
  strnstrLoop str find findLen (str.length + 1) 0 stringLen

/-- Inner loop "find start of the string" of `stristr`:
`while (toLower(*ptr) != toLower(*_find) ) { ... }`. -/
def stristrSkip (str find : List Int) (findLen : Nat) :
    Nat → Nat → Nat → Outcome (Option (Nat × Nat))
  | 0, _, _ => fault Fault.fuel
  | fuel + 1, ptr, stringLen => do
    let c ← rd str ptr
    let f ← rd find 0
    if toLower c ≠ toLower f then
      let ptr1 := ptr + 1
      let stringLen1 := decSize stringLen
      if findLen > stringLen1 then ok none
      else stristrSkip str find findLen fuel ptr1 stringLen1
    else ok (some (ptr, stringLen))

/-- Inner loop "start comparing" of `stristr`:
`while (toLower(*string++) == toLower(*search++) ) { if ('\0' == *search) return ptr; }`. -/
def stristrCompare (str find : List Int) : Nat → Nat → Nat → Outcome Bool
  | 0, _, _ => fault Fault.fuel
  | fuel + 1, string, search => do
    let a ← rd str string
    let b ← rd find search
    if toLower a = toLower b then do
      let e ← rd find (search + 1)
      if 0 = e then ok true
      else stristrCompare str find fuel (string + 1) (search + 1)
    else ok false

/-- Outer loop of `stristr`. -/
def stristrLoop (str find : List Int) (findLen : Nat) :
    Nat → Nat → Nat → Outcome (Option Nat)
  | 0, _, _ => fault Fault.fuel
  | fuel + 1, ptr, stringLen =>
    if stringLen ≥ findLen then do
      let r ← stristrSkip str find findLen (str.length + 1) ptr stringLen
      match r with
      | none => ok none
      | some (ptr1, stringLen1) => do
        let found ← stristrCompare str find (find.length + 1) ptr1 0
        if found then ok (some ptr1)
        else stristrLoop str find findLen fuel (ptr1 + 1) (decSize stringLen1)
    else ok none

/-- `const char* stristr(const char* _str, const char* _find, size_t _max)`;
the budgets are those of `strnstr`. -/
def stristr (str find : List Int) (max : Nat) : Outcome (Option Nat) := do
  let stringLen ← strnlen str max
  let findLen ← strnlen find SIZE_MAX
  stristrLoop str find findLen (str.length + 1) 0 stringLen

/-- Loop of `strnl`: `for (; '\0' != *_str; _str += strnlen(_str, 1024) ) { ... }`
followed by `return _str`. Arguments: iteration budget and the offset `_str`.
The needles are the string literals `"\r\n"` and `"\n"`, and the searches run
on the buffer seen from `_str`. -/
def strnlLoop (str : List Int) : Nat → Nat → Outcome Nat
  | 0, _ => fault Fault.fuel
  | fuel + 1, p => do
    let c ← rd str p
    if 0 ≠ c then do
      let eol ← strnstr (str.drop p) [13, 10, 0] 1024
      match eol with
      | some e => ok (p + e + 2)
      | none => do
        let eol ← strnstr (str.drop p) [10, 0] 1024
        match eol with
        | some e => ok (p + e + 1)
        | none => do
          let n ← strnlen (str.drop p) 1024
          strnlLoop str fuel (p + n)
    else ok p

/-- `const char* strnl(const char* _str)`. Every iteration that goes on moves
`_str` by `strnlen(_str, 1024)`, at least one byte, so the budget given here is
never used up (`strnl_ne_fuel`). -/
def strnl (str : List Int) : Outcome Nat :=
  strnlLoop str (str.length + 1) 0

/-- Loop of `strnws`: `for (; !isSpace(*_str); ++_str) {};`. Arguments: iteration
budget and the offset `_str`. -/
def strnwsLoop (str : List Int) : Nat → Nat → Outcome Nat
  | 0, _ => fault Fault.fuel
  | fuel + 1, p => do
    let c ← rd str p
    if !isSpace c then strnwsLoop str fuel (p + 1) else ok p

/-- `const char* strnws(const char* _str)`. Every iteration reads `str` at an
offset that grows by one, so the budget given here is never used up
(`strnws_ne_fuel`). -/
def strnws (str : List Int) : Outcome Nat :=
  strnwsLoop str (str.length + 1) 0

/-- Largest value of the C type `int`. -/
def INT_MAX : Int := 2 ^ 31 - 1

/-- Loop of `strmb`:
`for (char ch = *_str++; ch != '\0' && count >= 0; ch = *_str++) { ... }`
followed by `return NULL`. Arguments: iteration budget, the offset `_str`
(already moved past `ch`), `ch`, `count`. Incrementing an `int` equal to
`INT_MAX` is undefined behaviour, the fault `Fault.overflow`. -/
def strmbLoop (str : List Int) (opn cls : Int) :
    Nat → Nat → Int → Int → Outcome (Option Nat)
  | 0, _, _, _ => fault Fault.fuel
  | fuel + 1, p, ch, count =>
    if ch ≠ 0 ∧ count ≥ 0 then
      if ch = opn then
        if count = INT_MAX then fault Fault.overflow
        else do
          let ch1 ← rd str p
          strmbLoop str opn cls fuel (p + 1) ch1 (count + 1)
      else if ch = cls then
        let count1 := count - 1
        if 0 = count1 then ok (some (p - 1))
        else do
          let ch1 ← rd str p
          strmbLoop str opn cls fuel (p + 1) ch1 count1
      else do
        let ch1 ← rd str p
        strmbLoop str opn cls fuel (p + 1) ch1 count
    else ok none

/-- `const char* strmb(const char* _str, char _open, char _close)`. Every
iteration after the first follows a read of `str` at an offset that grows by
one, so the budget given here is never used up (`strmb_ne_fuel`). -/
def strmb (str : List Int) (opn cls : Int) : Outcome (Option Nat) := do
  let ch ← rd str 0
  strmbLoop str opn cls (str.length + 1) 1 ch 0

/-- Vocabulary of the `strmb` properties: index `j` of `body` holds the byte
`cls`, and `body[0..j]` holds as many bytes `opn` as bytes `cls`. -/
def balancedAt (body : List Int) (opn cls : Int) (j : Nat) : Prop :=
  body[j]? = some cls ∧ (body.take (j + 1)).count opn = (body.take (j + 1)).count cls

instance (body : List Int) (opn cls : Int) (j : Nat) : Decidable (balancedAt body opn cls j) := by
  unfold balancedAt
  infer_instance

/-- Loop of `eolLF`:
`for (char ch = *_str++; ch != '\0' && _out < end; ch = *_str++) { if ('\r' != ch) { *_out++ = ch; } }`.
Arguments: iteration budget, the output buffer, the offsets `_out` and `_str`
(already moved past `ch`), and `ch`; `endp` is `end`. The result is the output
buffer and `_out` when the loop is left. -/
def eolLFLoop (str : List Int) (endp : Nat) :
    Nat → List Int → Nat → Nat → Int → Outcome (List Int × Nat)
  | 0, _, _, _, _ => fault Fault.fuel
  | fuel + 1, out, o, sp, ch =>
    if ch ≠ 0 ∧ o < endp then
      if 13 ≠ ch then do
        let out1 ← wr out o ch
        let ch1 ← rd str sp
        eolLFLoop str endp fuel out1 (o + 1) (sp + 1) ch1
      else do
        let ch1 ← rd str sp
        eolLFLoop str endp fuel out o (sp + 1) ch1
    else ok (out, o)

/-- `void eolLF(char* _out, size_t _size, const char* _str)`: the result is the
output buffer after the call. Every iteration after the first follows a read
of `str` at an offset that grows by one, so the budget given here is never
used up (`eolLF_ne_fuel`). -/
def eolLF (out : List Int) (size : Nat) (str : List Int) : Outcome (List Int) :=
  if 0 < size then do
    let endp := size - 1
    let ch ← rd str 0
    let (out1, o) ← eolLFLoop str endp (str.length + 1) out 0 1 ch
    wr out1 o 0
  else ok out

/-- Vocabulary of the `eolLF` property: the bytes of `l` with every
carriage-return byte removed. -/
def removeCR (l : List Int) : List Int :=
  l.filter (fun c => decide (c ≠ 13))

/-- The test `isAlphaNum(ch) || '_' == ch` of `findIdentifierMatch`. -/
def isIdentChar (ch : Int) : Bool := isAlphaNum ch || 95 == ch

/-- Loop of `findIdentifierMatch`:
`for (; NULL != ptr; ptr = strnstr(ptr + len, _word) ) { ... }` followed by
`return ptr`. Arguments: iteration budget and `ptr` (an offset into `str`, or
`none` for `NULL`). `before` is whether the first `continue` is taken
(`ptr != _str` and the byte `*(ptr - 1)` is an identifier byte), `reject`
whether either `continue` is taken. The call `strnstr(ptr + len, _word)`
searches the buffer seen from `ptr + len`, and its result is an offset from
there. -/
def findIdentifierMatchLoop (str word : List Int) (len : Nat) :
    Nat → Option Nat → Outcome (Option Nat)
  | _, none => ok none
  | 0, some _ => fault Fault.fuel
  | fuel + 1, some ptr => do
    let before ←
      (if ptr ≠ 0 then do
        let ch ← rd str (ptr - 1)
        ok (isIdentChar ch)
      else ok false)
    let reject ←
      (if before then ok true
      else do
        let ch ← rd str (ptr + len)
        ok (isIdentChar ch))
    if reject then do
      let r ← strnstr (str.drop (ptr + len)) word SIZE_MAX
      findIdentifierMatchLoop str word len fuel (r.map (fun o => ptr + len + o))
    else ok (some ptr)

/-- `const char* findIdentifierMatch(const char* _str, const char* _word)`.
The budget allows one iteration of the loop for each byte of `str`: with a
non-empty word every iteration restarts the search further into `str`. A
search that does not move on (an empty word) uses the budget up, where the C
loop does not end. -/
def findIdentifierMatch (str word : List Int) : Outcome (Option Nat) := do
  let len ← strnlen word SIZE_MAX
  let ptr ← strnstr str word SIZE_MAX
  findIdentifierMatchLoop str word len (str.length + 1) ptr

/-- Vocabulary of the `findIdentifierMatch` properties: `needle` stands in `str`
at offset `p` as a whole token: the bytes `str[p .. p + |needle|)` are those
of `needle`, `p = 0` or the byte before is not an identifier byte, and the
byte after is not an identifier byte. -/
def wholeTokenAt (str needle : List Int) (p : Nat) : Prop :=
  (str.drop p).take needle.length = needle ∧
  (p = 0 ∨ (str[p - 1]?).map isIdentChar = some false) ∧
  (str[p + needle.length]?).map isIdentChar = some false

instance (str needle : List Int) (p : Nat) : Decidable (wholeTokenAt str needle p) := by
  unfold wholeTokenAt
  infer_instance

/-- The comparison `a > b` of two pointers into one string, either of which
may be `NULL`: `NULL` is below every pointer into the string. -/
def ptrGt : Option Nat → Option Nat → Bool
  | some a, some b => decide (a > b)
  | some _, none => true
  | none, _ => false

/-- `const char* baseName(const char* _filePath)`; the three searches are
`strnrchr` with the default bound for `'\\'`, `'/'` and `':'`. -/
def baseName (filePath : List Int) : Outcome Nat := do
  let bs ← strnrchr filePath 92 SIZE_MAX
  let fs ← strnrchr filePath 47 SIZE_MAX
  let slash := if ptrGt bs fs then bs else fs
  let colon ← strnrchr filePath 58 SIZE_MAX
  let basename := if ptrGt slash colon then slash else colon
  match basename with
  | some p => ok (p + 1)
  | none => ok 0

/-- Number of low bits that a 64-bit unsigned integer loses when it is
rounded to 53 significant bits: how often `n` is halved until it is below
`2 ^ 53`. The first argument bounds the count. -/
def excessBits : Nat → Nat → Nat
  | 0, _ => 0
  | fuel + 1, n => if n < 2 ^ 53 then 0 else excessBits fuel (n / 2) + 1

/-- The conversion `double(_size)` of a 64-bit unsigned integer: the nearest
number with 53 significant bits, ties to even. The result is an integer. -/
def toDouble (n : Nat) : Nat :=
  let sh := excessBits 64 n
  if sh = 0 then n
  else
    let q := n >>> sh
    let r := n % 2 ^ sh
    let half := 2 ^ (sh - 1)
    let q1 := if r > half ∨ (r = half ∧ q % 2 = 1) then q + 1 else q
    q1 <<< sh

/-- Loop of `prettify`:
`while (_size != (_size&0x7ff) && idx < 9) { _size >>= 10; size *= 1.0/1024.0; ++idx; }`.
Arguments: iteration budget, `_size`, the `double` `size` and `idx`. The
`double` is the pair `(m, e)` of value `m / 2 ^ e`: multiplying by `1.0/1024.0`
adds 10 to `e` and is exact. -/
def prettifyLoop : Nat → Nat → Nat × Nat → Nat → Outcome (Nat × (Nat × Nat) × Nat)
  | 0, _, _, _ => fault Fault.fuel
  | fuel + 1, sz, (m, e), idx =>
    if sz ≠ (sz &&& 0x7ff) ∧ idx < 9 then
      prettifyLoop fuel (sz >>> 10) (m, e + 10) (idx + 1)
    else ok (sz, (m, e), idx)

/-- Decimal digits of a natural number, most significant first, as bytes;
`acc` is the text already produced for the lower digits. -/
def decDigits : Nat → Nat → List Int → List Int
  | 0, _, acc => acc
  | fuel + 1, n, acc =>
    if n < 10 then (48 + (n : Int)) :: acc
    else decDigits fuel (n / 10) ((48 + ((n % 10 : Nat) : Int)) :: acc)

/-- The library conversion `%0.2f` of the `double` of value `m / 2 ^ e`: the
value rounded to two decimals (an exact tie goes to the even neighbour), as
integer digits, `'.'` and two digits. -/
def formatFixed2 (m e : Nat) : List Int :=
  let den := 2 ^ e
  let q := m * 100 / den
  let r := m * 100 % den
  let cents := if 2 * r > den ∨ (2 * r = den ∧ q % 2 = 1) then q + 1 else q
  decDigits (cents + 1) (cents / 100) [] ++
    [46, 48 + ((cents % 100 / 10 : Nat) : Int), 48 + ((cents % 10 : Nat) : Int)]

/-- The library call `vsnprintf(_str, _count, ...)` behind `bx::snprintf`, for
arguments that format to the bytes `text`: with `_count > 0` the first
`min |text| (_count - 1)` bytes of `text` and a zero byte are written; the
value returned is `|text|`. -/
def snprintfText (out : List Int) (count : Nat) (text : List Int) :
    Outcome (List Int × Nat) :=
  if count = 0 then ok (out, text.length)
  else
    let k := min text.length (count - 1)
    if k < out.length then ok (text.take k ++ 0 :: out.drop (k + 1), text.length)
    else fault Fault.oob

/-- `void prettify(char* _out, size_t _count, uint64_t _size)`: the result is
the output buffer after the call. The format is `"%0.2f %c%c"` with the
arguments `size`, `"BkMGTPEZY"[idx]` and `idx > 0 ? 'B' : '\0'`; the string
literal is the nine letters and a zero byte. The loop runs at most nine times,
so the budget given here is never used up (`prettify_ne_fuel`). -/
def prettify (out : List Int) (count : Nat) (size : Nat) : Outcome (List Int) := do
  let (_, (m, e), idx) ← prettifyLoop 10 size (toDouble size, 0) 0
  let c1 ← rd [66, 107, 77, 71, 84, 80, 69, 90, 89, 0] idx
  let c2 : Int := if idx > 0 then 66 else 0
  let (out1, _) ← snprintfText out count (formatFixed2 m e ++ [32, c1, c2])
  ok out1

/-- The C string that a buffer holds: its bytes before the first zero byte. -/
def cstr (buf : List Int) : List Int :=
  buf.takeWhile (fun c => c ≠ 0)

/-- First loop of `strlcpy`:
`while (--nn != 0) { if ( (*dd++ = *ss++) == '\0') break; }`.
Arguments: iteration budget, the destination buffer, the common offset of `dd`
and `ss`, and `nn`. The result is the destination buffer, the offset and `nn`
when the loop is left. -/
def strlcpyCopy (src : List Int) :
    Nat → List Int → Nat → Nat → Outcome (List Int × Nat × Nat)
  | 0, _, _, _ => fault Fault.fuel
  | fuel + 1, dst, p, nn =>
    let nn1 := decSize nn
    if nn1 ≠ 0 then do
      let c ← rd src p
      let dst1 ← wr dst p c
      if c = 0 then ok (dst1, p + 1, nn1)
      else strlcpyCopy src fuel dst1 (p + 1) nn1
    else ok (dst, p, nn1)

/-- Second loop of `strlcpy`: `while (*ss++) { }`. Arguments: iteration budget
and `ss`; the result is `ss` when the loop is left. -/
def strlcpyScan (src : List Int) : Nat → Nat → Outcome Nat
  | 0, _ => fault Fault.fuel
  | fuel + 1, ss => do
    let c ← rd src ss
    if c ≠ 0 then strlcpyScan src fuel (ss + 1) else ok (ss + 1)

/-- `size_t strlcpy(char* _dst, const char* _src, size_t _siz)`: the result is
the destination buffer after the call and the value returned,
`ss - _src - 1` as a `size_t`. The first loop runs fewer than `_siz` times
and the second reads `src` at an offset that grows by one, so the budgets
given here are never used up (`strlcpy_ne_fuel`). -/
def strlcpy (dst src : List Int) (siz : Nat) : Outcome (List Int × Nat) := do
  let (dst1, p, nn) ←
    if siz ≠ 0 then strlcpyCopy src siz dst 0 siz
    else ok (dst, 0, siz)
  if nn = 0 then do
    let dst2 ← if siz ≠ 0 then wr dst1 p 0 else ok dst1
    let ss ← strlcpyScan src (src.length + 1) p
    ok (dst2, decSize ss)
  else ok (dst1, decSize p)

/-- First loop of `strlcat`: `while (nn-- != 0 && *dd != '\0') { dd++; }`.
Arguments: `nn` and the offset `dd`; the result is `dd` when the loop is left
(`nn` is assigned anew after the loop). -/
def strlcatFind (dst : List Int) : Nat → Nat → Outcome Nat
  | 0, dd => ok dd
  | nn + 1, dd => do
    let c ← rd dst dd
    if c ≠ 0 then strlcatFind dst nn (dd + 1) else ok dd

/-- Second loop of `strlcat`:
`while (*s != '\0') { if (nn != 1) { *dd++ = *s; nn--; } s++; }`.
Arguments: iteration budget, the destination buffer, the offset `dd`, `nn` and
the offset `s`. The result is the destination buffer, `dd` and `s` when the
loop is left. -/
def strlcatCopy (src : List Int) :
    Nat → List Int → Nat → Nat → Nat → Outcome (List Int × Nat × Nat)
  | 0, _, _, _, _ => fault Fault.fuel
  | fuel + 1, dst, dd, nn, s => do
    let c ← rd src s
    if c ≠ 0 then
      if nn ≠ 1 then do
        let dst1 ← wr dst dd c
        strlcatCopy src fuel dst1 (dd + 1) (decSize nn) (s + 1)
      else strlcatCopy src fuel dst dd nn (s + 1)
    else ok (dst, dd, s)

/-- `size_t strlcat(char* _dst, const char* _src, size_t _siz)`: the result is
the destination buffer after the call and the value returned. `dlen` is at
most `_siz`, so `_siz - dlen` does not wrap. Every iteration of the second
loop reads `src` at an offset that grows by one, so the budget given here is
never used up (`strlcat_ne_fuel`). -/
def strlcat (dst src : List Int) (siz : Nat) : Outcome (List Int × Nat) := do
  let dlen ← strlcatFind dst siz 0
  let nn := siz - dlen
  if nn = 0 then do
    let slen ← strnlen src SIZE_MAX
    ok (dst, dlen + slen)
  else do
    let (dst1, dd, s) ← strlcatCopy src (src.length + 1) dst dlen nn 0
    let dst2 ← wr dst1 dd 0
    ok (dst2, dlen + s)

/-! ## Sequencing and memory access -/

@[simp] theorem ok_bind {α β : Type} (a : α) (f : α → Outcome β) :
    (ok a >>= f) = f a := rfl

@[simp] theorem fault_bind {α β : Type} (e : Fault) (f : α → Outcome β) :
    (fault e >>= f) = fault e := rfl

@[simp] theorem pure_eq_ok {α : Type} (a : α) : (pure a : Outcome α) = ok a := rfl

theorem rd_some {buf : List Int} {i : Nat} {c : Int} (h : buf[i]? = some c) :
    rd buf i = ok c := by
  simp [rd, h]

theorem rd_none {buf : List Int} {i : Nat} (h : buf[i]? = none) :
    rd buf i = fault Fault.oob := by
  simp [rd, h]

theorem rd_eq_ok {buf : List Int} {i : Nat} {c : Int} :
    rd buf i = ok c ↔ buf[i]? = some c := by
  unfold rd
  cases h : buf[i]? <;> simp

theorem exists_getElem? (l : List Int) (i : Nat) (h : i < l.length) :
    ∃ c, l[i]? = some c :=
  ⟨l[i], List.getElem?_eq_getElem h⟩

theorem decSize_pos {x : Nat} (h0 : 0 < x) : decSize x = x - 1 := by
  unfold decSize
  rw [if_neg (by omega)]

/-! ## `strnlen` -/

theorem strnlenLoop_ok (str : List Int) :
    ∀ (max ptr n : Nat), strnlenLoop str max ptr = ok n →
      ptr ≤ n ∧ n ≤ ptr + max ∧
      (∀ i, ptr ≤ i → i < n → ∃ c, str[i]? = some c ∧ c ≠ 0) ∧
      (n < ptr + max → str[n]? = some 0) := by
  intro max
  induction max with
  | zero =>
    intro ptr n h
    simp only [strnlenLoop, ok.injEq] at h
    subst h
    refine ⟨le_refl _, le_refl _, ?_, ?_⟩
    · intro i h1 h2; omega
    · intro h; omega
  | succ m ih =>
    intro ptr n h
    rw [strnlenLoop] at h
    cases hc : str[ptr]? with
    | none => simp [rd_none hc] at h
    | some c =>
      simp only [rd_some hc, ok_bind] at h
      by_cases hz : c = 0
      · simp only [hz, ne_eq, not_true_eq_false, if_false, ok.injEq] at h
        subst h
        refine ⟨le_refl _, by omega, ?_, ?_⟩
        · intro i h1 h2; omega
        · intro _; rw [hc, hz]
      · simp only [ne_eq, hz, not_false_eq_true, if_true] at h
        obtain ⟨h1, h2, h3, h4⟩ := ih (ptr + 1) n h
        refine ⟨by omega, by omega, ?_, ?_⟩
        · intro i hi1 hi2
          by_cases hip : i = ptr
          · subst hip; exact ⟨c, hc, hz⟩
          · exact h3 i (by omega) hi2
        · intro hlt; exact h4 (by omega)

theorem strnlenLoop_total (str : List Int) :
    ∀ (max ptr : Nat),
      (ptr + max ≤ str.length ∨ ∃ z, ptr ≤ z ∧ str[z]? = some 0) →
      ∃ n, strnlenLoop str max ptr = ok n := by
  intro max
  induction max with
  | zero => intro ptr _; exact ⟨ptr, by simp [strnlenLoop]⟩
  | succ m ih =>
    intro ptr hv
    rw [strnlenLoop]
    have hlt : ptr < str.length := by
      rcases hv with h | ⟨z, hz1, hz2⟩
      · omega
      · have := (List.getElem?_eq_some_iff.mp hz2).1
        omega
    obtain ⟨c, hc⟩ : ∃ c, str[ptr]? = some c := ⟨str[ptr], List.getElem?_eq_getElem hlt⟩
    simp only [rd_some hc, ok_bind]
    by_cases hz : c = 0
    · exact ⟨ptr, by simp [hz]⟩
    · simp only [ne_eq, hz, not_false_eq_true, if_true]
      apply ih
      rcases hv with h | ⟨z, hz1, hz2⟩
      · left; omega
      · right
        refine ⟨z, ?_, hz2⟩
        by_cases hzp : z = ptr
        · subst hzp; rw [hc] at hz2; simp at hz2; exact absurd hz2 hz
        · omega

/-- Facts about a returned `strnlen`: the result is within the bound and the
buffer, the bytes before it are non-zero, and a zero byte stands at it when it
is below the bound. -/
theorem strnlen_ok {str : List Int} {max n : Nat} (h : strnlen str max = ok n) :
    n ≤ max ∧ n ≤ str.length ∧
    (∀ i, i < n → ∃ c, str[i]? = some c ∧ c ≠ 0) ∧
    (n < max → str[n]? = some 0) := by
  obtain ⟨_, h2, h3, h4⟩ := strnlenLoop_ok str max 0 n h
  refine ⟨by omega, ?_, fun i hi => h3 i (Nat.zero_le _) hi, fun hlt => h4 (by omega)⟩
  by_contra hcon
  obtain ⟨c, hc, _⟩ := h3 str.length (Nat.zero_le _) (by omega)
  simp at hc

theorem getElem?_terminator (body rest : List Int) (c : Int) :
    (body ++ c :: rest)[body.length]? = some c := by
  rw [List.getElem?_append_right (le_refl _)]
  simp

theorem getElem?_body (body rest : List Int) {i : Nat} (hi : i < body.length) :
    (body ++ rest)[i]? = some (body[i]) := by
  rw [List.getElem?_append_left hi, List.getElem?_eq_getElem hi]

/-- The length of a zero-terminated string whose terminator is within the bound. -/
theorem strnlen_terminated (body rest : List Int) (max : Nat)
    (hbody : ∀ c ∈ body, c ≠ 0) (hmax : body.length ≤ max) :
    strnlen (body ++ 0 :: rest) max = ok body.length := by
  obtain ⟨n, hn⟩ := strnlenLoop_total (body ++ 0 :: rest) max 0
    (Or.inr ⟨body.length, Nat.zero_le _, getElem?_terminator body rest 0⟩)
  have hn2 : strnlen (body ++ 0 :: rest) max = ok n := hn
  obtain ⟨h1, _, h3, h4⟩ := strnlen_ok hn2
  have hle : n ≤ body.length := by
    by_contra hcon
    obtain ⟨c, hc, hc0⟩ := h3 body.length (by omega)
    rw [getElem?_terminator] at hc
    exact hc0 (Option.some.inj hc).symm
  have hge : body.length ≤ n := by
    by_contra hcon
    have hz := h4 (by omega)
    rw [List.getElem?_append_left (by omega)] at hz
    have hm := List.getElem?_mem hz
    exact hbody 0 hm rfl
  rw [hn2]; congr 1; omega

/-- `strnlen` returns on every buffer that covers the bound: one that is at
least `max` bytes long, or holds a zero byte. -/
theorem strnlen_total (str : List Int) (max : Nat)
    (hvalid : max ≤ str.length ∨ (0 : Int) ∈ str) : ∃ n, strnlen str max = ok n := by
  have hv : 0 + max ≤ str.length ∨ ∃ z, 0 ≤ z ∧ str[z]? = some 0 := by
    rcases hvalid with h | h
    · left; omega
    · right
      obtain ⟨z, hz, hz2⟩ := List.getElem_of_mem h
      exact ⟨z, Nat.zero_le _, by rw [List.getElem?_eq_getElem hz, hz2]⟩
  exact strnlenLoop_total str max 0 hv

/-- C1: for every buffer `str` and bound `max` that the buffer covers (it is
at least `max` bytes long, or holds a zero byte), `strnlen str max` returns
some `n ≤ max`; `n` is the index of the first zero byte when one occurs at an
index below `max`, and `n = max` otherwise. -/
theorem strnlen_spec (str : List Int) (max : Nat)
    (hvalid : max ≤ str.length ∨ (0 : Int) ∈ str) :
    ∃ n, strnlen str max = ok n ∧ n ≤ max ∧
      (∀ z, z < max → str[z]? = some 0 → (∀ j, j < z → str[j]? ≠ some 0) → n = z) ∧
      ((∀ z, z < max → str[z]? ≠ some 0) → n = max) := by
  obtain ⟨n, hn2⟩ := strnlen_total str max hvalid
  obtain ⟨h1, _, h3, h4⟩ := strnlen_ok hn2
  refine ⟨n, hn2, h1, ?_, ?_⟩
  · intro z hz hz0 hfirst
    by_contra hne
    rcases Nat.lt_or_gt_of_ne hne with hlt | hgt
    · exact hfirst n hlt (h4 (by omega))
    · obtain ⟨c, hc, hc0⟩ := h3 z hgt
      rw [hz0] at hc
      simp at hc
      exact hc0 hc.symm
  · intro hnz
    by_contra hne
    exact hnz n (by omega) (h4 (by omega))

theorem strnlen_spec_witness :
    ∃ n, strnlen [104, 105, 0, 7] 10 = ok n ∧ n ≤ 10 ∧
      (∀ z, z < 10 → [104, 105, 0, 7][z]? = some (0 : Int) →
        (∀ j, j < z → [104, 105, 0, 7][j]? ≠ some (0 : Int)) → n = z) ∧
      ((∀ z, z < 10 → [104, 105, 0, 7][z]? ≠ some (0 : Int)) → n = 10) :=
  strnlen_spec [104, 105, 0, 7] 10 (Or.inr (by decide))

/-! ## `strlncpy` -/

theorem wr_ok {buf : List Int} {i : Nat} (c : Int) (h : i < buf.length) :
    wr buf i c = ok (buf.set i c) := by
  simp [wr, h]

theorem memcpy_ok (dst src : List Int) :
    ∀ n, n ≤ dst.length → n ≤ src.length →
      ∃ d, memcpy dst src n = ok d ∧ d.length = dst.length ∧
        (∀ i, i < n → d[i]? = src[i]?) ∧ (∀ i, n ≤ i → d[i]? = dst[i]?) := by
  intro n
  induction n with
  | zero =>
    intro _ _
    exact ⟨dst, rfl, rfl, fun i hi => absurd hi (Nat.not_lt_zero _), fun _ _ => rfl⟩
  | succ k ih =>
    intro hd hs
    obtain ⟨d, hd1, hd2, hd3, hd4⟩ := ih (by omega) (by omega)
    have hc : src[k]? = some (src[k]) := List.getElem?_eq_getElem (by omega)
    refine ⟨d.set k (src[k]), ?_, by simp [hd2], ?_, ?_⟩
    · rw [memcpy, hd1]
      simp only [ok_bind, rd_some hc]
      exact wr_ok _ (by omega)
    · intro i hi
      by_cases hik : i = k
      · subst hik
        rw [List.getElem?_set_self (by omega), hc]
      · rw [List.getElem?_set_ne (by omega)]
        exact hd3 i (by omega)
    · intro i hi
      rw [List.getElem?_set_ne (by omega)]
      exact hd4 i (by omega)

/-- C2: for a destination of capacity `dstSize > 0` and a source that covers
the bound `num`, `strlncpy` returns `n = min (strnlen src num) (dstSize - 1)`,
leaves the first `n` bytes of the destination equal to those of the source and
a zero byte at offset `n`, and leaves every byte at an offset `≥ dstSize`
as it was. -/
theorem strlncpy_spec (dst src : List Int) (dstSize num : Nat)
    (h0 : 0 < dstSize) (hdst : dstSize ≤ dst.length)
    (hsrc : num ≤ src.length ∨ (0 : Int) ∈ src) :
    ∃ len dst1, strnlen src num = ok len ∧
      strlncpy dst dstSize src num = ok (dst1, min len (dstSize - 1)) ∧
      dst1.length = dst.length ∧
      (∀ i, i < min len (dstSize - 1) → dst1[i]? = src[i]?) ∧
      dst1[min len (dstSize - 1)]? = some 0 ∧
      (∀ i, dstSize ≤ i → dst1[i]? = dst[i]?) ∧
      (len ≤ dstSize - 1 → min len (dstSize - 1) = len) ∧
      (dstSize - 1 < len → min len (dstSize - 1) = dstSize - 1) := by
  obtain ⟨len, hlen⟩ := strnlen_total src num hsrc
  obtain ⟨_, hls, _, _⟩ := strnlen_ok hlen
  have hn : (if len < decSize dstSize then len else decSize dstSize)
      = min len (dstSize - 1) := by
    rw [decSize_pos h0]
    split <;> omega
  obtain ⟨d, hd1, hd2, hd3, hd4⟩ :=
    memcpy_ok dst src (min len (dstSize - 1)) (by omega) (by omega)
  refine ⟨len, d.set (min len (dstSize - 1)) 0, hlen, ?_, by simp [hd2], ?_, ?_, ?_, ?_, ?_⟩
  · unfold strlncpy BX_CHECK
    simp only [h0, decide_True, if_true, ok_bind, hlen, hn, hd1]
    rw [wr_ok _ (by omega)]
    rfl
  · intro i hi
    rw [List.getElem?_set_ne (by omega)]
    exact hd3 i hi
  · rw [List.getElem?_set_self (by omega)]
  · intro i hi
    rw [List.getElem?_set_ne (by omega)]
    exact hd4 i (by omega)
  · intro h; omega
  · intro h; omega

theorem strlncpy_spec_witness :
    ∃ len dst1, strnlen [104, 105, 106, 0] 10 = ok len ∧
      strlncpy [1, 1, 1, 1, 1] 3 [104, 105, 106, 0] 10 = ok (dst1, min len (3 - 1)) ∧
      dst1.length = [1, 1, 1, 1, (1 : Int)].length ∧
      (∀ i, i < min len (3 - 1) → dst1[i]? = [104, 105, 106, (0 : Int)][i]?) ∧
      dst1[min len (3 - 1)]? = some 0 ∧
      (∀ i, 3 ≤ i → dst1[i]? = [1, 1, 1, 1, (1 : Int)][i]?) ∧
      (len ≤ 3 - 1 → min len (3 - 1) = len) ∧
      (3 - 1 < len → min len (3 - 1) = 3 - 1) :=
  strlncpy_spec [1, 1, 1, 1, 1] [104, 105, 106, 0] 3 10 (by decide) (by decide)
    (Or.inr (by decide))

/-! ## `strnstr` -/

theorem strnstrCompare_spec (str find : List Int) (m ptr : Nat)
    (hfind : ∀ k, k < m → ∃ c, find[k]? = some c ∧ c ≠ 0) (hterm : find[m]? = some 0)
    (hstr : ptr + m ≤ str.length) :
    ∀ (fuel q : Nat), q < m → m < fuel + q →
      ∃ r, strnstrCompare str find fuel (ptr + q) q = ok r ∧
        (r = true ↔ ∀ k, q ≤ k → k < m → str[ptr + k]? = find[k]?) := by
  intro fuel
  induction fuel with
  | zero => intro q h1 h2; omega
  | succ f ih =>
    intro q hq hfuel
    rw [strnstrCompare]
    have ha : str[ptr + q]? = some (str[ptr + q]) := List.getElem?_eq_getElem (by omega)
    obtain ⟨b, hb, hb0⟩ := hfind q hq
    simp only [rd_some ha, rd_some hb, ok_bind]
    by_cases hab : str[ptr + q] = b
    · simp only [hab, if_true]
      by_cases hq1 : q + 1 = m
      · have he : find[q + 1]? = some 0 := by rw [hq1]; exact hterm
        simp only [rd_some he, ok_bind, if_true]
        refine ⟨true, rfl, ?_⟩
        simp only [true_iff]
        intro k hk1 hk2
        have : k = q := by omega
        subst this
        rw [ha, hb, hab]
      · obtain ⟨e, he, he0⟩ := hfind (q + 1) (by omega)
        simp only [rd_some he, ok_bind, if_neg (Ne.symm he0)]
        obtain ⟨r, hr1, hr2⟩ := ih (q + 1) (by omega) (by omega)
        refine ⟨r, hr1, ?_⟩
        rw [hr2]
        constructor
        · intro h k hk1 hk2
          by_cases hkq : k = q
          · subst hkq; rw [ha, hb, hab]
          · exact h k (by omega) hk2
        · intro h k hk1 hk2
          exact h k (by omega) hk2
    · simp only [hab, if_false]
      refine ⟨false, rfl, ?_⟩
      simp only [Bool.false_eq_true, false_iff]
      intro h
      have := h q (le_refl _) hq
      rw [ha, hb] at this
      exact hab (Option.some.inj this)

theorem strnstrSkip_spec (str find : List Int) (m : Nat) (f0 : Int)
    (hf0 : find[0]? = some f0) (hm : 0 < m) :
    ∀ (fuel ptr sl : Nat), m ≤ sl → ptr + sl ≤ str.length → sl < fuel + m →
      (∃ p, strnstrSkip str find m fuel ptr sl = ok (some (p, ptr + sl - p)) ∧
          ptr ≤ p ∧ p + m ≤ ptr + sl ∧ str[p]? = some f0 ∧
          ∀ j, ptr ≤ j → j < p → str[j]? ≠ some f0) ∨
      (strnstrSkip str find m fuel ptr sl = ok none ∧
          ∀ j, ptr ≤ j → j + m ≤ ptr + sl → str[j]? ≠ some f0) := by
  intro fuel
  induction fuel with
  | zero => intro ptr sl h1 h2 h3; omega
  | succ f ih =>
    intro ptr sl hsl hstr hfuel
    rw [strnstrSkip]
    have ha : str[ptr]? = some (str[ptr]) := List.getElem?_eq_getElem (by omega)
    simp only [rd_some ha, rd_some hf0, ok_bind]
    by_cases hc : str[ptr] = f0
    · left
      refine ⟨ptr, ?_, le_refl _, by omega, by rw [ha, hc], fun j h1 h2 => by omega⟩
      simp only [hc, ne_eq, not_true_eq_false, if_false]
      congr 3; omega
    · simp only [ne_eq, hc, not_false_eq_true, if_true, decSize_pos (show 0 < sl by omega)]
      have hptr : str[ptr]? ≠ some f0 := by
        rw [ha]; intro h; exact hc (Option.some.inj h)
      by_cases hlt : m > sl - 1
      · right
        refine ⟨by simp only [hlt, if_true], ?_⟩
        intro j hj1 hj2
        have : j = ptr := by omega
        subst this
        exact hptr
      · simp only [hlt, if_false]
        rcases ih (ptr + 1) (sl - 1) (by omega) (by omega) (by omega) with
          ⟨p, h1, h2, h3, h4, h5⟩ | ⟨h1, h2⟩
        · left
          refine ⟨p, ?_, by omega, by omega, h4, ?_⟩
          · rw [h1]; congr 3; omega
          · intro j hj1 hj2
            by_cases hjp : j = ptr
            · subst hjp; exact hptr
            · exact h5 j (by omega) hj2
        · right
          refine ⟨h1, ?_⟩
          intro j hj1 hj2
          by_cases hjp : j = ptr
          · subst hjp; exact hptr
          · exact h2 j (by omega) (by omega)

theorem strnstrLoop_spec (str find : List Int) (m : Nat)
    (hfind : ∀ k, k < m → ∃ c, find[k]? = some c ∧ c ≠ 0) (hterm : find[m]? = some 0)
    (hm : 0 < m) :
    ∀ (fuel ptr sl : Nat), ptr + sl ≤ str.length → sl < fuel →
      (∃ i, strnstrLoop str find m fuel ptr sl = ok (some i) ∧
          ptr ≤ i ∧ i + m ≤ ptr + sl ∧ (∀ k, k < m → str[i + k]? = find[k]?) ∧
          ∀ j, ptr ≤ j → j < i → ¬ ∀ k, k < m → str[j + k]? = find[k]?) ∨
      (strnstrLoop str find m fuel ptr sl = ok none ∧
          ∀ j, ptr ≤ j → j + m ≤ ptr + sl → ¬ ∀ k, k < m → str[j + k]? = find[k]?) := by
  obtain ⟨f0, hf0, _⟩ := hfind 0 hm
  have hflen : m < find.length := (List.getElem?_eq_some_iff.mp hterm).1
  intro fuel
  induction fuel with
  | zero => intro ptr sl h1 h2; omega
  | succ f ih =>
    intro ptr sl hstr hfuel
    rw [strnstrLoop]
    by_cases hsl : sl ≥ m
    · simp only [hsl, if_true]
      have hnomatch : ∀ j, str[j]? ≠ some f0 → ¬ ∀ k, k < m → str[j + k]? = find[k]? := by
        intro j hj hall
        have := hall 0 hm
        rw [Nat.add_zero, hf0] at this
        exact hj this
      rcases strnstrSkip_spec str find m f0 hf0 hm (str.length + 1) ptr sl hsl hstr (by omega)
        with ⟨p, h1, h2, h3, h4, h5⟩ | ⟨h1, h2⟩
      · rw [h1]
        simp only [ok_bind]
        obtain ⟨r, hcmp, hr⟩ := strnstrCompare_spec str find m p hfind hterm (by omega)
          (find.length + 1) 0 hm (by omega)
        have hcmp2 : strnstrCompare str find (find.length + 1) p 0 = ok r := hcmp
        rw [hcmp2]
        simp only [ok_bind]
        by_cases hall : ∀ k, k < m → str[p + k]? = find[k]?
        · left
          refine ⟨p, ?_, h2, h3, hall, fun j hj1 hj2 => hnomatch j (h5 j hj1 hj2)⟩
          have : r = true := hr.mpr (fun k _ hk => hall k hk)
          rw [this]; rfl
        · have hd : r = false := by
            cases r with
            | false => rfl
            | true => exact absurd (fun k hk => hr.mp rfl k (Nat.zero_le _) hk) hall
          rw [hd]
          simp only [Bool.false_eq_true, if_false, decSize_pos (show 0 < ptr + sl - p by omega)]
          have hrest : ∀ j, ptr ≤ j → j < p + 1 → ¬ ∀ k, k < m → str[j + k]? = find[k]? := by
            intro j hj1 hj2
            by_cases hjp : j = p
            · subst hjp; exact hall
            · exact hnomatch j (h5 j hj1 (by omega))
          rcases ih (p + 1) (ptr + sl - p - 1) (by omega) (by omega) with
            ⟨i, g1, g2, g3, g4, g5⟩ | ⟨g1, g2⟩
          · left
            refine ⟨i, g1, by omega, by omega, g4, ?_⟩
            intro j hj1 hj2
            by_cases hjp : j < p + 1
            · exact hrest j hj1 hjp
            · exact g5 j (by omega) hj2
          · right
            refine ⟨g1, ?_⟩
            intro j hj1 hj2
            by_cases hjp : j < p + 1
            · exact hrest j hj1 hjp
            · exact g2 j (by omega) (by omega)
      · right
        rw [h1]
        exact ⟨rfl, fun j hj1 hj2 => hnomatch j (h2 j hj1 hj2)⟩
    · right
      simp only [hsl, if_false]
      exact ⟨trivial, fun j hj1 hj2 => by omega⟩

theorem needle_getElem? (needle rest : List Int) (hneedle : ∀ c ∈ needle, c ≠ 0) :
    (∀ k, k < needle.length → ∃ c, (needle ++ 0 :: rest)[k]? = some c ∧ c ≠ 0) ∧
    (needle ++ 0 :: rest)[needle.length]? = some 0 := by
  refine ⟨?_, getElem?_terminator needle rest 0⟩
  intro k hk
  refine ⟨needle[k], getElem?_body needle _ hk, hneedle _ (List.getElem_mem hk)⟩

/-- The bytes of `str` at offsets `i .. i + |needle| - 1` are those of `needle`,
stated on indices and on sublists. -/
theorem occurs_iff (str needle rest : List Int) (i : Nat) :
    (∀ k, k < needle.length → str[i + k]? = (needle ++ 0 :: rest)[k]?) ↔
      (str.drop i).take needle.length = needle := by
  constructor
  · intro h
    apply List.ext_getElem?
    intro k
    by_cases hk : k < needle.length
    · rw [List.getElem?_take_of_lt hk, List.getElem?_drop, h k hk,
        List.getElem?_append_left hk]
    · rw [List.getElem?_take_eq_none (by omega), List.getElem?_eq_none (by omega)]
  · intro h k hk
    rw [List.getElem?_append_left hk, ← List.getElem?_drop,
      ← List.getElem?_take_of_lt hk, h]

/-- Search of a zero-terminated haystack with the default bound: the result is
the least offset at which the needle stands inside the haystack, or `NULL`
when there is none. -/
theorem strnstr_terminated (hbody hrest needle rest : List Int)
    (hhay : ∀ c ∈ hbody, c ≠ 0) (hhlen : hbody.length ≤ SIZE_MAX)
    (hneedle : ∀ c ∈ needle, c ≠ 0) (hne : needle ≠ [])
    (hlen : needle.length ≤ SIZE_MAX) :
    (∃ i, strnstr (hbody ++ 0 :: hrest) (needle ++ 0 :: rest) SIZE_MAX = ok (some i) ∧
        i + needle.length ≤ hbody.length ∧
        (∀ k, k < needle.length →
          (hbody ++ 0 :: hrest)[i + k]? = (needle ++ 0 :: rest)[k]?) ∧
        ∀ j, j < i → ¬ ∀ k, k < needle.length →
          (hbody ++ 0 :: hrest)[j + k]? = (needle ++ 0 :: rest)[k]?) ∨
    (strnstr (hbody ++ 0 :: hrest) (needle ++ 0 :: rest) SIZE_MAX = ok none ∧
        ∀ j, j + needle.length ≤ hbody.length → ¬ ∀ k, k < needle.length →
          (hbody ++ 0 :: hrest)[j + k]? = (needle ++ 0 :: rest)[k]?) := by
  have hm : 0 < needle.length := List.length_pos.mpr hne
  obtain ⟨hfind, hterm⟩ := needle_getElem? needle rest hneedle
  have hrun : strnstr (hbody ++ 0 :: hrest) (needle ++ 0 :: rest) SIZE_MAX
      = strnstrLoop (hbody ++ 0 :: hrest) (needle ++ 0 :: rest) needle.length
          ((hbody ++ 0 :: hrest).length + 1) 0 hbody.length := by
    unfold strnstr
    rw [strnlen_terminated hbody hrest SIZE_MAX hhay hhlen,
      strnlen_terminated needle rest SIZE_MAX hneedle hlen]
    rfl
  rw [hrun]
  rcases strnstrLoop_spec (hbody ++ 0 :: hrest) (needle ++ 0 :: rest) needle.length
      hfind hterm hm ((hbody ++ 0 :: hrest).length + 1) 0 hbody.length
      (by simp) (by simp; omega) with ⟨i, h1, _, h3, h4, h5⟩ | ⟨h1, h2⟩
  · left
    exact ⟨i, h1, by omega, h4, fun j hj => h5 j (Nat.zero_le _) hj⟩
  · right
    exact ⟨h1, fun j hj => h2 j (Nat.zero_le _) (by omega)⟩

/-- C3: for a non-empty zero-terminated needle (the bytes `needle`, none of them
zero, followed by a zero byte) and `n = strnlen str max`, `strnstr` returns the
least offset `i` with `i + |needle| ≤ n` at which the needle stands in `str`,
and `NULL` when there is no such offset, in particular when the needle is
longer than `max`. -/
theorem strnstr_spec (str needle rest : List Int) (max n : Nat)
    (hneedle : ∀ c ∈ needle, c ≠ 0) (hne : needle ≠ [])
    (hlen : needle.length ≤ SIZE_MAX)
    (hn : strnlen str max = ok n) :
    (∀ i, i + needle.length ≤ n →
      (str.drop i).take needle.length = needle →
      (∀ j, j < i → (str.drop j).take needle.length ≠ needle) →
      strnstr str (needle ++ 0 :: rest) max = ok (some i)) ∧
    ((∀ i, i + needle.length ≤ n → (str.drop i).take needle.length ≠ needle) →
      strnstr str (needle ++ 0 :: rest) max = ok none) ∧
    (max < needle.length → strnstr str (needle ++ 0 :: rest) max = ok none) := by
  obtain ⟨hnmax, hnlen, _, _⟩ := strnlen_ok hn
  have hm : 0 < needle.length := List.length_pos.mpr hne
  obtain ⟨hfind, hterm⟩ := needle_getElem? needle rest hneedle
  have hrun : strnstr str (needle ++ 0 :: rest) max
      = strnstrLoop str (needle ++ 0 :: rest) needle.length (str.length + 1) 0 n := by
    unfold strnstr
    rw [hn, strnlen_terminated needle rest SIZE_MAX hneedle hlen]
    rfl
  have hspec := strnstrLoop_spec str (needle ++ 0 :: rest) needle.length hfind hterm hm
    (str.length + 1) 0 n (by omega) (by omega)
  have hnone : (∀ i, i + needle.length ≤ n → (str.drop i).take needle.length ≠ needle) →
      strnstr str (needle ++ 0 :: rest) max = ok none := by
    intro hno
    rcases hspec with ⟨i, _, _, h3, h4, _⟩ | ⟨h1, _⟩
    · exact absurd ((occurs_iff str needle rest i).mp h4) (hno i (by omega))
    · rw [hrun, h1]
  refine ⟨?_, hnone, fun hlt => hnone (fun i hi => by omega)⟩
  intro i hi hocc hleast
  rcases hspec with ⟨i1, h1, _, h3, h4, h5⟩ | ⟨_, h2⟩
  · have hle : i1 ≤ i := by
      by_contra hcon
      exact h5 i (Nat.zero_le _) (by omega)
        ((occurs_iff str needle rest i).mpr hocc)
    have hge : i ≤ i1 := by
      by_contra hcon
      exact hleast i1 (by omega) ((occurs_iff str needle rest i1).mp h4)
    rw [hrun, h1]
    congr 2; omega
  · exact absurd ((occurs_iff str needle rest i).mpr hocc)
      (h2 i (Nat.zero_le _) (by omega))

theorem strnstr_spec_witness :
    (∀ i, i + [98, 97, (114 : Int)].length ≤ 6 →
      (([102, 111, 111, 98, 97, 114, 0] : List Int).drop i).take [98, 97, (114 : Int)].length
        = [98, 97, 114] →
      (∀ j, j < i →
        (([102, 111, 111, 98, 97, 114, 0] : List Int).drop j).take [98, 97, (114 : Int)].length
          ≠ [98, 97, 114]) →
      strnstr [102, 111, 111, 98, 97, 114, 0] ([98, 97, 114] ++ 0 :: []) 10 = ok (some i)) ∧
    ((∀ i, i + [98, 97, (114 : Int)].length ≤ 6 →
        (([102, 111, 111, 98, 97, 114, 0] : List Int).drop i).take [98, 97, (114 : Int)].length
          ≠ [98, 97, 114]) →
      strnstr [102, 111, 111, 98, 97, 114, 0] ([98, 97, 114] ++ 0 :: []) 10 = ok none) ∧
    (10 < [98, 97, (114 : Int)].length →
      strnstr [102, 111, 111, 98, 97, 114, 0] ([98, 97, 114] ++ 0 :: []) 10 = ok none) :=
  strnstr_spec [102, 111, 111, 98, 97, 114, 0] [98, 97, 114] [] 10 6
    (by decide) (by decide) (by decide) (by decide)

/-! ## `stristr` -/

theorem toLower_eq_zero (c : Int) : toLower c = 0 ↔ c = 0 := by
  unfold toLower isUpper
  by_cases h : 65 ≤ c ∧ c ≤ 90
  · simp only [ge_iff_le, h.1, h.2, decide_True, Bool.and_self, if_true]
    omega
  · have : (decide (c ≥ 65) && decide (c ≤ 90)) = false := by
      simp only [ge_iff_le, Bool.and_eq_false_iff, decide_eq_false_iff_not]
      omega
    simp only [this, Bool.false_eq_true, if_false, add_zero]

theorem rd_map (f : Int → Int) (buf : List Int) (i : Nat) :
    rd (buf.map f) i = (rd buf i >>= fun c => ok (f c)) := by
  unfold rd
  rw [List.getElem?_map]
  cases buf[i]? <;> rfl

theorem bind_assoc_ok {β : Type} (x : Outcome Int) (f : Int → Int) (g : Int → Outcome β) :
    ((x >>= fun c => ok (f c)) >>= g) = (x >>= fun c => g (f c)) := by
  cases x <;> rfl

theorem strnlenLoop_map_toLower (str : List Int) :
    ∀ (max ptr : Nat), strnlenLoop (str.map toLower) max ptr = strnlenLoop str max ptr := by
  intro max
  induction max with
  | zero => intro ptr; rfl
  | succ m ih =>
    intro ptr
    rw [strnlenLoop, strnlenLoop, rd_map, bind_assoc_ok]
    congr 1
    funext c
    by_cases hc : c = 0
    · simp [hc, (toLower_eq_zero 0).mpr rfl]
    · have : toLower c ≠ 0 := fun h => hc ((toLower_eq_zero c).mp h)
      simp only [ne_eq, hc, this, not_false_eq_true, if_true]
      exact ih (ptr + 1)

theorem strnlen_map_toLower (str : List Int) (max : Nat) :
    strnlen (str.map toLower) max = strnlen str max :=
  strnlenLoop_map_toLower str max 0

theorem stristrSkip_eq (str find : List Int) (findLen : Nat) :
    ∀ (fuel ptr sl : Nat), stristrSkip str find findLen fuel ptr sl
      = strnstrSkip (str.map toLower) (find.map toLower) findLen fuel ptr sl := by
  intro fuel
  induction fuel with
  | zero => intro ptr sl; rfl
  | succ f ih =>
    intro ptr sl
    rw [stristrSkip, strnstrSkip, rd_map, bind_assoc_ok]
    congr 1
    funext c
    rw [rd_map, bind_assoc_ok]
    congr 1
    funext d
    simp only [ih]

theorem stristrCompare_eq (str find : List Int) :
    ∀ (fuel s q : Nat), stristrCompare str find fuel s q
      = strnstrCompare (str.map toLower) (find.map toLower) fuel s q := by
  intro fuel
  induction fuel with
  | zero => intro s q; rfl
  | succ f ih =>
    intro s q
    rw [stristrCompare, strnstrCompare, rd_map, bind_assoc_ok]
    congr 1
    funext c
    rw [rd_map, bind_assoc_ok]
    congr 1
    funext d
    by_cases hcd : toLower c = toLower d
    · simp only [hcd, if_true]
      rw [rd_map, bind_assoc_ok]
      congr 1
      funext e
      have he : (0 = toLower e) ↔ (0 = e) := by
        rw [eq_comm, toLower_eq_zero, eq_comm]
      simp only [he, ih]
    · simp only [hcd, if_false]

theorem stristrLoop_eq (str find : List Int) (findLen : Nat) :
    ∀ (fuel ptr sl : Nat), stristrLoop str find findLen fuel ptr sl
      = strnstrLoop (str.map toLower) (find.map toLower) findLen fuel ptr sl := by
  intro fuel
  induction fuel with
  | zero => intro ptr sl; rfl
  | succ f ih =>
    intro ptr sl
    rw [stristrLoop, strnstrLoop]
    simp only [stristrSkip_eq, stristrCompare_eq, ih, List.length_map]

/-- C4: `stristr` returns on `str`, `find`, `max` what `strnstr` returns with the
same `max` on the byte-wise `toLower` images of `str` and `find` (the same
offset, `NULL` or fault); and `stristr("Hello World", "WORLD")` is offset 6. -/
theorem stristr_eq_strnstr_toLower :
    (∀ (str find : List Int) (max : Nat),
      stristr str find max = strnstr (str.map toLower) (find.map toLower) max) ∧
    stristr [72, 101, 108, 108, 111, 32, 87, 111, 114, 108, 100, 0]
      [87, 79, 82, 76, 68, 0] SIZE_MAX = ok (some 6) := by
  refine ⟨?_, by decide⟩
  intro str find max
  unfold stristr strnstr
  simp only [strnlen_map_toLower, stristrLoop_eq, List.length_map]

/-! ## `strncmp` -/

theorem getElem?_of_lt_some {l : List Int} {i p : Nat} {a : Int} (h : l[i]? = some a)
    (hp : p ≤ i) : ∃ c, l[p]? = some c := by
  have hi := (List.getElem?_eq_some_iff.mp h).1
  exact ⟨l[p], List.getElem?_eq_getElem (by omega)⟩

theorem strncmpLoop_diff (lhs rhs : List Int) (i : Nat) (a b : Int)
    (ha : lhs[i]? = some a) (hb : rhs[i]? = some b) (hab : a ≠ b) :
    ∀ (max p : Nat), p ≤ i → i < p + max →
      (∀ j, p ≤ j → j < i → lhs[j]? = rhs[j]? ∧ lhs[j]? ≠ some 0) →
      strncmpLoop lhs rhs max p = ok (i, p + max - i) := by
  intro max
  induction max with
  | zero => intro p h1 h2; omega
  | succ m ih =>
    intro p h1 h2 hpre
    rw [strncmpLoop]
    by_cases hpi : p = i
    · subst hpi
      simp only [rd_some ha, rd_some hb, ok_bind, hab, if_false]
      congr 2; omega
    · obtain ⟨c, hc⟩ := getElem?_of_lt_some ha h1
      obtain ⟨hc1, hc2⟩ := hpre p (le_refl _) (by omega)
      have hc3 : rhs[p]? = some c := by rw [← hc1, hc]
      have hc0 : c ≠ 0 := by
        intro h0; rw [hc, h0] at hc2; exact hc2 rfl
      simp only [rd_some hc, rd_some hc3, ok_bind, if_true, hc0, or_self, if_false]
      rw [ih (p + 1) (by omega) (by omega) (fun j hj1 hj2 => hpre j (by omega) hj2)]
      congr 2; omega

theorem strncmpLoop_same (lhs rhs : List Int) :
    ∀ (max p : Nat),
      (p + max ≤ lhs.length ∨ ∃ z, p ≤ z ∧ lhs[z]? = some 0) →
      (∀ i, p ≤ i → i < p + max →
        (∀ j, p ≤ j → j < i → lhs[j]? = rhs[j]? ∧ lhs[j]? ≠ some 0) →
        lhs[i]? = rhs[i]?) →
      ∃ q m, strncmpLoop lhs rhs max p = ok (q, m) ∧
        (m = 0 ∨ (lhs[q]? = some 0 ∧ rhs[q]? = some 0)) := by
  intro max
  induction max with
  | zero => intro p _ _; exact ⟨p, 0, by simp [strncmpLoop], Or.inl rfl⟩
  | succ m ih =>
    intro p hv hsame
    rw [strncmpLoop]
    have hlt : p < lhs.length := by
      rcases hv with h | ⟨z, hz1, hz2⟩
      · omega
      · have := (List.getElem?_eq_some_iff.mp hz2).1
        omega
    have hc : lhs[p]? = some (lhs[p]) := List.getElem?_eq_getElem hlt
    have hc3 : rhs[p]? = some (lhs[p]) := by
      rw [← hsame p (le_refl _) (by omega) (fun j h1 h2 => by omega), hc]
    simp only [rd_some hc, rd_some hc3, ok_bind, if_true, or_self]
    by_cases hz : lhs[p] = 0
    · refine ⟨p, m + 1, by simp [hz], Or.inr ⟨?_, ?_⟩⟩
      · rw [hc, hz]
      · rw [hc3, hz]
    · simp only [hz, if_false]
      apply ih (p + 1)
      · rcases hv with h | ⟨z, hz1, hz2⟩
        · left; omega
        · right
          refine ⟨z, ?_, hz2⟩
          by_cases hzp : z = p
          · subst hzp; rw [hc] at hz2; exact absurd (Option.some.inj hz2) hz
          · omega
      · intro i hi1 hi2 hpre
        apply hsame i (by omega) (by omega)
        intro j hj1 hj2
        by_cases hjp : j = p
        · subst hjp
          refine ⟨by rw [hc, hc3], ?_⟩
          rw [hc]; intro h; exact hz (Option.some.inj h)
        · exact hpre j (by omega) hj2

/-- C5: `strncmp lhs rhs max`. If `i < max` is the least index at which the two
buffers differ and no zero byte occurs before it, the result is the difference
`lhs[i] - rhs[i]`, which is not zero. If there is no such index (all `max`
bytes match, or a shared zero byte comes first), the result is `0`; here `lhs`
covers the bound (it is at least `max` bytes long, or holds a zero byte), and
the bytes of `rhs` compared are equal to those of `lhs`. -/
theorem strncmp_spec (lhs rhs : List Int) (max : Nat)
    (hl : max ≤ lhs.length ∨ (0 : Int) ∈ lhs) :
    (∀ i a b, i < max →
      (∀ j, j < i → lhs[j]? = rhs[j]? ∧ lhs[j]? ≠ some 0) →
      lhs[i]? = some a → rhs[i]? = some b → a ≠ b →
      strncmp lhs rhs max = ok (a - b) ∧ a - b ≠ 0) ∧
    ((¬ ∃ i, i < max ∧ (∀ j, j < i → lhs[j]? = rhs[j]? ∧ lhs[j]? ≠ some 0) ∧
        lhs[i]? ≠ rhs[i]?) →
      strncmp lhs rhs max = ok 0) := by
  constructor
  · intro i a b hi hpre ha hb hab
    have hloop := strncmpLoop_diff lhs rhs i a b ha hb hab max 0 (Nat.zero_le _) (by omega)
      (fun j _ hj => hpre j hj)
    refine ⟨?_, sub_ne_zero.mpr hab⟩
    unfold strncmp
    rw [hloop]
    simp only [ok_bind, rd_some ha, rd_some hb]
    rw [if_neg (by omega)]
  · intro hno
    have hv : 0 + max ≤ lhs.length ∨ ∃ z, 0 ≤ z ∧ lhs[z]? = some 0 := by
      rcases hl with h | h
      · left; omega
      · right
        obtain ⟨z, hz, hz2⟩ := List.getElem_of_mem h
        exact ⟨z, Nat.zero_le _, by rw [List.getElem?_eq_getElem hz, hz2]⟩
    obtain ⟨q, m, hloop, hm⟩ := strncmpLoop_same lhs rhs max 0 hv (by
      intro i _ hi hpre
      by_contra hne
      exact hno ⟨i, by omega, fun j hj => hpre j (Nat.zero_le _) hj, hne⟩)
    unfold strncmp
    rw [hloop]
    simp only [ok_bind]
    rcases hm with hm | ⟨h1, h2⟩
    · rw [if_pos hm.symm]
    · by_cases hm0 : 0 = m
      · rw [if_pos hm0]
      · rw [if_neg hm0]
        simp only [rd_some h1, rd_some h2, ok_bind, sub_self]

theorem strncmp_spec_witness :
    (∀ i a b, i < 5 →
      (∀ j, j < i → [97, 98, (0 : Int)][j]? = [97, 99, (0 : Int)][j]? ∧
        [97, 98, (0 : Int)][j]? ≠ some 0) →
      [97, 98, (0 : Int)][i]? = some a → [97, 99, (0 : Int)][i]? = some b → a ≠ b →
      strncmp [97, 98, 0] [97, 99, 0] 5 = ok (a - b) ∧ a - b ≠ 0) ∧
    ((¬ ∃ i, i < 5 ∧ (∀ j, j < i → [97, 98, (0 : Int)][j]? = [97, 99, (0 : Int)][j]? ∧
        [97, 98, (0 : Int)][j]? ≠ some 0) ∧
        [97, 98, (0 : Int)][i]? ≠ [97, 99, (0 : Int)][i]?) →
      strncmp [97, 98, 0] [97, 99, 0] 5 = ok 0) :=
  strncmp_spec [97, 98, 0] [97, 99, 0] 5 (Or.inr (by decide))

/-! ## `strincmp` and `strnrchr` at concrete inputs -/

/-- C6: on `"a"` against `"B"` with bound 1, `strincmp` returns `'a' - 'B' = 31`,
the difference of the bytes as they are, while `strncmp` on the `toLower`
images returns `'a' - 'b' = -1`. -/
theorem strincmp_returns_raw_difference :
    strincmp [97, 0] [66, 0] 1 = ok 31 ∧
    strncmp ([97, 0].map toLower) ([66, 0].map toLower) 1 = ok (-1) := by
  decide

/-- C7: on `"a"` with the default bound the byte `'a'` stands at index 0, below
`strnlen = 1`, yet `strnrchr` returns `NULL`: its loop tests the indices
`strnlen .. 1` and never index 0. -/
theorem strnrchr_misses_index_zero :
    strnlen [97, 0] SIZE_MAX = ok 1 ∧ [97, (0 : Int)][0]? = some 97 ∧
    strnrchr [97, 0] 97 SIZE_MAX = ok none := by
  decide

/-! ## `findIdentifierMatch` -/

theorem isIdentChar_ne_zero {c : Int} (h : isIdentChar c = true) : c ≠ 0 := by
  intro h0
  subst h0
  exact absurd h (by decide)

/-- Search of a zero-terminated string from offset `b` on: the result of
`strnstr(str + b, word)`, as an offset from `b`. -/
theorem strnstr_from (sbody srest needle wrest : List Int) (b : Nat)
    (hs : ∀ c ∈ sbody, c ≠ 0) (hslen : sbody.length ≤ SIZE_MAX)
    (hneedle : ∀ c ∈ needle, c ≠ 0) (hne : needle ≠ [])
    (hwlen : needle.length ≤ SIZE_MAX) (hb : b ≤ sbody.length) :
    (∃ i, strnstr ((sbody ++ 0 :: srest).drop b) (needle ++ 0 :: wrest) SIZE_MAX
          = ok (some i) ∧
        b + i + needle.length ≤ sbody.length ∧
        ((sbody ++ 0 :: srest).drop (b + i)).take needle.length = needle ∧
        ∀ j, b ≤ j → j < b + i →
          ((sbody ++ 0 :: srest).drop j).take needle.length ≠ needle) ∨
    (strnstr ((sbody ++ 0 :: srest).drop b) (needle ++ 0 :: wrest) SIZE_MAX = ok none ∧
        ∀ j, b ≤ j → j + needle.length ≤ sbody.length →
          ((sbody ++ 0 :: srest).drop j).take needle.length ≠ needle) := by
  have hdrop : (sbody ++ 0 :: srest).drop b = sbody.drop b ++ 0 :: srest :=
    List.drop_append_of_le_length hb
  have hidx : ∀ j, (sbody.drop b ++ 0 :: srest)[j]? = (sbody ++ 0 :: srest)[b + j]? := by
    intro j; rw [← hdrop, List.getElem?_drop]
  have hocc : ∀ j, (∀ k, k < needle.length →
        (sbody.drop b ++ 0 :: srest)[j + k]? = (needle ++ 0 :: wrest)[k]?) ↔
      ((sbody ++ 0 :: srest).drop (b + j)).take needle.length = needle := by
    intro j
    rw [← occurs_iff (sbody ++ 0 :: srest) needle wrest (b + j)]
    constructor
    · intro h k hk; rw [Nat.add_assoc, ← hidx]; exact h k hk
    · intro h k hk; rw [hidx, ← Nat.add_assoc]; exact h k hk
  rw [hdrop]
  rcases strnstr_terminated (sbody.drop b) srest needle wrest
      (fun c hc => hs c (List.mem_of_mem_drop hc))
      (by rw [List.length_drop]; omega) hneedle hne hwlen with
    ⟨i, h1, h2, h3, h4⟩ | ⟨h1, h2⟩
  · left
    rw [List.length_drop] at h2
    refine ⟨i, h1, by omega, (hocc i).mp h3, ?_⟩
    intro j hj1 hj2 hcon
    apply h4 (j - b) (by omega)
    apply (hocc (j - b)).mpr
    rw [show b + (j - b) = j by omega]
    exact hcon
  · right
    refine ⟨h1, ?_⟩
    intro j hj1 hj2 hcon
    apply h2 (j - b) (by rw [List.length_drop]; omega)
    apply (hocc (j - b)).mpr
    rw [show b + (j - b) = j by omega]
    exact hcon

theorem findIdentifierMatchLoop_spec (sbody srest needle wrest : List Int)
    (hs : ∀ c ∈ sbody, c ≠ 0) (hslen : sbody.length ≤ SIZE_MAX)
    (hne : needle ≠ []) (hident : ∀ c ∈ needle, isIdentChar c = true)
    (hwlen : needle.length ≤ SIZE_MAX) :
    ∀ (fuel b : Nat) (cand : Option Nat), b ≤ sbody.length → sbody.length < fuel + b →
      (∀ q, q < b → ¬ wholeTokenAt (sbody ++ 0 :: srest) needle q) →
      ((∃ ptr, cand = some ptr ∧ b ≤ ptr ∧ ptr + needle.length ≤ sbody.length ∧
          ((sbody ++ 0 :: srest).drop ptr).take needle.length = needle ∧
          ∀ j, b ≤ j → j < ptr →
            ((sbody ++ 0 :: srest).drop j).take needle.length ≠ needle) ∨
        (cand = none ∧ ∀ j, b ≤ j → j + needle.length ≤ sbody.length →
            ((sbody ++ 0 :: srest).drop j).take needle.length ≠ needle)) →
      (∃ p, findIdentifierMatchLoop (sbody ++ 0 :: srest) (needle ++ 0 :: wrest)
              needle.length fuel cand = ok (some p) ∧
          p + needle.length ≤ sbody.length ∧
          wholeTokenAt (sbody ++ 0 :: srest) needle p ∧
          ∀ q, q < p → ¬ wholeTokenAt (sbody ++ 0 :: srest) needle q) ∨
      (findIdentifierMatchLoop (sbody ++ 0 :: srest) (needle ++ 0 :: wrest)
              needle.length fuel cand = ok none ∧
          ∀ q, q + needle.length ≤ sbody.length →
            ¬ wholeTokenAt (sbody ++ 0 :: srest) needle q) := by
  have hm : 0 < needle.length := List.length_pos.mpr hne
  have hneedle : ∀ c ∈ needle, c ≠ 0 := fun c hc => isIdentChar_ne_zero (hident c hc)
  intro fuel
  induction fuel with
  | zero =>
    intro b cand hb hfuel hinv hcand
    rcases hcand with ⟨ptr, _, h2, h3, _, _⟩ | ⟨h1, h2⟩
    · omega
    · right
      subst h1
      refine ⟨by rw [findIdentifierMatchLoop], ?_⟩
      intro q hq hw
      exact h2 q (by omega) hq hw.1
  | succ f ih =>
    intro b cand hb hfuel hinv hcand
    rcases hcand with ⟨ptr, h1, h2, h3, hocc, hfirst⟩ | ⟨h1, h2⟩
    · subst h1
      rw [findIdentifierMatchLoop]
      -- the byte before the candidate
      obtain ⟨bf, hbf1, hbf2⟩ : ∃ bf : Bool,
          (if ptr ≠ 0 then (do
              let ch ← rd (sbody ++ 0 :: srest) (ptr - 1)
              ok (isIdentChar ch))
            else ok false) = ok bf ∧
          (bf = false ↔
            (ptr = 0 ∨ ((sbody ++ 0 :: srest)[ptr - 1]?).map isIdentChar = some false)) := by
        by_cases hp0 : ptr = 0
        · refine ⟨false, by simp [hp0], by simp [hp0]⟩
        · obtain ⟨ch, hch⟩ := exists_getElem? (sbody ++ 0 :: srest) (ptr - 1)
            (by simp; omega)
          refine ⟨isIdentChar ch, by simp [hp0, rd_some hch], ?_⟩
          simp [hp0, hch]
      -- the byte after the candidate
      obtain ⟨ch2, hch2⟩ := exists_getElem? (sbody ++ 0 :: srest) (ptr + needle.length)
        (by simp; omega)
      have haf : ((sbody ++ 0 :: srest)[ptr + needle.length]?).map isIdentChar
          = some (isIdentChar ch2) := by rw [hch2]; rfl
      have hbefore : ∀ q, q < ptr → ¬ wholeTokenAt (sbody ++ 0 :: srest) needle q := by
        intro q hq hw
        by_cases hqb : q < b
        · exact hinv q hqb hw
        · exact hfirst q (by omega) hq hw.1
      rw [hbf1]
      simp only [ok_bind, rd_some hch2]
      by_cases hrej : bf = false ∧ isIdentChar ch2 = false
      · left
        obtain ⟨hr1, hr2⟩ := hrej
        refine ⟨ptr, ?_, h3, ⟨hocc, hbf2.mp hr1, by rw [haf, hr2]⟩, hbefore⟩
        simp [hr1, hr2]
      · have hnw : ¬ wholeTokenAt (sbody ++ 0 :: srest) needle ptr := by
          intro hw
          apply hrej
          refine ⟨hbf2.mpr hw.2.1, ?_⟩
          have := hw.2.2
          rw [haf] at this
          exact Option.some.inj this
        have hreject : (if bf = true then ok true else (ok (isIdentChar ch2) : Outcome Bool))
            = ok true := by
          cases bf with
          | true => rfl
          | false =>
            cases hc : isIdentChar ch2 with
            | true => rfl
            | false => exact absurd ⟨rfl, hc⟩ hrej
        rw [hreject]
        simp only [ok_bind, if_true]
        have hinv2 : ∀ q, q < ptr + needle.length →
            ¬ wholeTokenAt (sbody ++ 0 :: srest) needle q := by
          intro q hq hw
          by_cases hq1 : q < ptr
          · exact hbefore q hq1 hw
          · by_cases hq2 : q = ptr
            · subst hq2; exact hnw hw
            · have hk : q - 1 - ptr < needle.length := by omega
              have hbyte := (occurs_iff (sbody ++ 0 :: srest) needle wrest ptr).mpr hocc
                (q - 1 - ptr) hk
              rw [show ptr + (q - 1 - ptr) = q - 1 by omega, getElem?_body needle _ hk]
                at hbyte
              rcases hw.2.1 with h0 | hprev
              · omega
              · rw [hbyte] at hprev
                have hid := hident _ (List.getElem_mem hk)
                simp only [Option.map_some', hid] at hprev
                exact absurd (Option.some.inj hprev) (by decide)
        rcases strnstr_from sbody srest needle wrest (ptr + needle.length) hs hslen hneedle
            hne hwlen h3 with ⟨i, g1, g2, g3, g4⟩ | ⟨g1, g2⟩
        · rw [g1]
          simp only [ok_bind, Option.map_some']
          exact ih (ptr + needle.length) _ h3 (by omega) hinv2
            (Or.inl ⟨ptr + needle.length + i, rfl, by omega, g2, g3, g4⟩)
        · rw [g1]
          simp only [ok_bind, Option.map_none']
          exact ih (ptr + needle.length) _ h3 (by omega) hinv2 (Or.inr ⟨rfl, g2⟩)
    · right
      subst h1
      refine ⟨by rw [findIdentifierMatchLoop], ?_⟩
      intro q hq hw
      by_cases hqb : q < b
      · exact hinv q hqb hw
      · exact h2 q (by omega) hq hw.1

/-- C8: for a zero-terminated string (the bytes `sbody`, none of them zero,
followed by a zero byte) and a non-empty zero-terminated word of identifier
bytes, `findIdentifierMatch` returns the least offset `p` at which the word
stands in the string as a whole token, and `NULL` when it stands nowhere in
the string as a whole token. -/
theorem findIdentifierMatch_spec (sbody srest needle wrest : List Int)
    (hs : ∀ c ∈ sbody, c ≠ 0) (hslen : sbody.length ≤ SIZE_MAX)
    (hne : needle ≠ []) (hident : ∀ c ∈ needle, isIdentChar c = true)
    (hwlen : needle.length ≤ SIZE_MAX) :
    (∀ p, p + needle.length ≤ sbody.length →
      wholeTokenAt (sbody ++ 0 :: srest) needle p →
      (∀ q, q < p → ¬ wholeTokenAt (sbody ++ 0 :: srest) needle q) →
      findIdentifierMatch (sbody ++ 0 :: srest) (needle ++ 0 :: wrest) = ok (some p)) ∧
    ((∀ p, p + needle.length ≤ sbody.length →
        ¬ wholeTokenAt (sbody ++ 0 :: srest) needle p) →
      findIdentifierMatch (sbody ++ 0 :: srest) (needle ++ 0 :: wrest) = ok none) := by
  have hneedle : ∀ c ∈ needle, c ≠ 0 := fun c hc => isIdentChar_ne_zero (hident c hc)
  have hspec : ∃ cand, findIdentifierMatch (sbody ++ 0 :: srest) (needle ++ 0 :: wrest)
        = findIdentifierMatchLoop (sbody ++ 0 :: srest) (needle ++ 0 :: wrest)
            needle.length ((sbody ++ 0 :: srest).length + 1) cand ∧
      ((∃ ptr, cand = some ptr ∧ 0 ≤ ptr ∧ ptr + needle.length ≤ sbody.length ∧
          ((sbody ++ 0 :: srest).drop ptr).take needle.length = needle ∧
          ∀ j, 0 ≤ j → j < ptr →
            ((sbody ++ 0 :: srest).drop j).take needle.length ≠ needle) ∨
        (cand = none ∧ ∀ j, 0 ≤ j → j + needle.length ≤ sbody.length →
            ((sbody ++ 0 :: srest).drop j).take needle.length ≠ needle)) := by
    have hfrom := strnstr_from sbody srest needle wrest 0 hs hslen hneedle hne hwlen
      (Nat.zero_le _)
    simp only [List.drop_zero, Nat.zero_add] at hfrom
    unfold findIdentifierMatch
    rw [strnlen_terminated needle wrest SIZE_MAX hneedle hwlen]
    simp only [ok_bind]
    rcases hfrom with ⟨i, g1, g2, g3, g4⟩ | ⟨g1, g2⟩
    · exact ⟨some i, by rw [g1]; rfl, Or.inl ⟨i, rfl, Nat.zero_le _, g2, g3, g4⟩⟩
    · exact ⟨none, by rw [g1]; rfl, Or.inr ⟨rfl, g2⟩⟩
  obtain ⟨cand, hrun, hcand⟩ := hspec
  have hloop := findIdentifierMatchLoop_spec sbody srest needle wrest hs hslen hne hident
    hwlen ((sbody ++ 0 :: srest).length + 1) 0 cand (Nat.zero_le _) (by simp; omega)
    (fun q hq => absurd hq (Nat.not_lt_zero _)) hcand
  constructor
  · intro p hp hw hleast
    rcases hloop with ⟨p1, h1, h2, h3, h4⟩ | ⟨_, h2⟩
    · have hle : p1 ≤ p := by
        by_contra hcon
        exact h4 p (by omega) hw
      have hge : p ≤ p1 := by
        by_contra hcon
        exact hleast p1 (by omega) h3
      rw [hrun, h1]
      congr 2; omega
    · exact absurd hw (h2 p hp)
  · intro hno
    rcases hloop with ⟨p1, _, h2, h3, _⟩ | ⟨h1, _⟩
    · exact absurd h3 (hno p1 h2)
    · rw [hrun, h1]

theorem findIdentifierMatch_spec_witness :
    findIdentifierMatch
      ([102, 111, 111, 98, 97, 114, 32, 102, 111, 111, 32, 98, 97, 114] ++ 0 :: [])
      ([102, 111, 111] ++ 0 :: []) = ok (some 7) :=
  (findIdentifierMatch_spec
    [102, 111, 111, 98, 97, 114, 32, 102, 111, 111, 32, 98, 97, 114] [] [102, 111, 111] []
    (by decide) (by decide) (by decide) (by decide) (by decide)).1 7
    (by decide) (by decide) (by decide)

/-! ## `strmb` -/

theorem count_take_succ (l : List Int) (a : Int) (k : Nat) (hk : k < l.length) :
    (l.take (k + 1)).count a = (l.take k).count a + (if l[k] = a then 1 else 0) := by
  rw [List.take_succ, List.count_append, List.getElem?_eq_getElem hk]
  simp only [Option.toList, List.count_singleton, beq_iff_eq]

theorem count_take_le (l : List Int) (a : Int) (k : Nat) : (l.take k).count a ≤ k := by
  calc (l.take k).count a ≤ (l.take k).length := List.count_le_length _ _
    _ ≤ k := List.length_take_le k l

theorem strmbLoop_spec (body rest : List Int) (opn cls : Int)
    (hbody : ∀ c ∈ body, c ≠ 0) (hoc : opn ≠ cls) (hlen : body.length < 2 ^ 31)
    (hpre : ∀ k, k ≤ body.length → (∀ i, i < k → ¬ balancedAt body opn cls i) →
      (body.take k).count cls ≤ (body.take k).count opn) :
    ∀ (fuel k : Nat) (ch count : Int), k ≤ body.length → body.length < fuel + k →
      (body ++ 0 :: rest)[k]? = some ch →
      count = ((body.take k).count opn : Int) - ((body.take k).count cls : Int) →
      (∀ i, i < k → ¬ balancedAt body opn cls i) →
      (∃ j, strmbLoop (body ++ 0 :: rest) opn cls fuel (k + 1) ch count = ok (some j) ∧
          balancedAt body opn cls j ∧ ∀ i, i < j → ¬ balancedAt body opn cls i) ∨
      (strmbLoop (body ++ 0 :: rest) opn cls fuel (k + 1) ch count = ok none ∧
          ∀ j, ¬ balancedAt body opn cls j) := by
  intro fuel
  induction fuel with
  | zero => intro k ch count h1 h2; omega
  | succ f ih =>
    intro k ch count hk hfuel hch hcount hnb
    rw [strmbLoop]
    by_cases hend : k = body.length
    · right
      subst hend
      rw [getElem?_terminator] at hch
      have hch0 : ch = 0 := (Option.some.inj hch).symm
      simp only [hch0, ne_eq, not_true_eq_false, false_and, if_false, true_and]
      intro j hj
      by_cases hjl : j < body.length
      · exact hnb j hjl hj
      · have := hj.1
        rw [List.getElem?_eq_none (by omega)] at this
        exact absurd this (by simp)
    · have hkl : k < body.length := by omega
      rw [getElem?_body body _ hkl] at hch
      have hchk : body[k] = ch := Option.some.inj hch
      have hch0 : ch ≠ 0 := by
        rw [← hchk]; exact hbody _ (List.getElem_mem hkl)
      have hle := hpre k hk hnb
      have hcnt0 : count ≥ 0 := by rw [hcount]; omega
      have hO := count_take_succ body opn k hkl
      have hC := count_take_succ body cls k hkl
      have hOk := count_take_le body opn k
      obtain ⟨c1, hnext⟩ := exists_getElem? (body ++ 0 :: rest) (k + 1) (by simp; omega)
      have hstep : ∀ count1 : Int, ¬ balancedAt body opn cls k →
          count1 = ((body.take (k + 1)).count opn : Int) - ((body.take (k + 1)).count cls : Int) →
          (∃ j, strmbLoop (body ++ 0 :: rest) opn cls f (k + 1 + 1)
                c1 count1 = ok (some j) ∧
              balancedAt body opn cls j ∧ ∀ i, i < j → ¬ balancedAt body opn cls i) ∨
          (strmbLoop (body ++ 0 :: rest) opn cls f (k + 1 + 1)
                c1 count1 = ok none ∧
              ∀ j, ¬ balancedAt body opn cls j) := by
        intro count1 hnk hc1
        apply ih (k + 1) _ count1 (by omega) (by omega) hnext hc1
        intro i hi
        by_cases hik : i = k
        · subst hik; exact hnk
        · exact hnb i (by omega)
      simp only [ne_eq, hch0, not_false_eq_true, hcnt0, and_self, if_true]
      by_cases hopn : ch = opn
      · simp only [hopn, if_true]
        have hmax : count ≠ INT_MAX := by
          unfold INT_MAX; rw [hcount]; omega
        simp only [hmax, if_false, rd_some hnext, ok_bind]
        apply hstep
        · intro hb
          have := hb.1
          rw [List.getElem?_eq_getElem hkl, hchk, hopn] at this
          exact hoc (Option.some.inj this)
        · rw [hO, hC, hchk, hopn, if_pos rfl, if_neg hoc, hcount]
          push_cast; omega
      · simp only [hopn, if_false]
        by_cases hcls : ch = cls
        · simp only [hcls, if_true]
          have hc1 : count - 1
              = ((body.take (k + 1)).count opn : Int) - ((body.take (k + 1)).count cls : Int) := by
            rw [hO, hC, hchk, hcls, if_pos rfl, if_neg (Ne.symm hoc), hcount]
            push_cast; omega
          by_cases hz : 0 = count - 1
          · left
            simp only [hz, if_true]
            refine ⟨k, by rw [Nat.add_sub_cancel], ⟨?_, ?_⟩, hnb⟩
            · rw [List.getElem?_eq_getElem hkl, hchk, hcls]
            · rw [hc1] at hz; omega
          · simp only [hz, if_false, rd_some hnext, ok_bind]
            apply hstep _ _ hc1
            intro hb
            have := hb.2
            rw [hc1] at hz; omega
        · simp only [hcls, if_false, rd_some hnext, ok_bind]
          apply hstep
          · intro hb
            have := hb.1
            rw [List.getElem?_eq_getElem hkl, hchk] at this
            exact hcls (Option.some.inj this)
          · rw [hO, hC, hchk, if_neg hopn, if_neg hcls, hcount]
            push_cast; omega

theorem getElem?_replicate_append (N : Nat) (a : Int) (tail : List Int) {i : Nat}
    (hi : i < N) : (List.replicate N a ++ tail)[i]? = some a := by
  rw [List.getElem?_append_left (by rw [List.length_replicate]; exact hi),
    List.getElem?_replicate_of_lt hi]

/-- On a string that starts with `N > 2 ^ 31 - 1` bytes `opn`, the loop of
`strmb`, at the byte of index `k` with `count = k`, goes on to the byte of
index `2 ^ 31 - 1`, where `count` is `INT_MAX` and `count++` overflows. -/
theorem strmbLoop_all_open (N : Nat) (rest : List Int) (opn cls : Int) (hopn : opn ≠ 0)
    (hN : 2147483647 < N) :
    ∀ (d k fuel : Nat), k + d = 2147483647 → d < fuel →
      strmbLoop (List.replicate N opn ++ 0 :: rest) opn cls fuel (k + 1) opn (k : Int)
        = fault Fault.overflow := by
  intro d
  induction d with
  | zero =>
    intro k fuel hk hfuel
    obtain ⟨f, rfl⟩ : ∃ f, fuel = f + 1 := ⟨fuel - 1, by omega⟩
    have hmax : (k : Int) = INT_MAX := by
      unfold INT_MAX; omega
    have hnn : (0 : Int) ≤ INT_MAX := by
      unfold INT_MAX; omega
    rw [strmbLoop]
    simp only [ne_eq, hopn, not_false_eq_true, ge_iff_le, hmax, hnn, and_self, if_true]
  | succ d ih =>
    intro k fuel hk hfuel
    obtain ⟨f, rfl⟩ : ∃ f, fuel = f + 1 := ⟨fuel - 1, by omega⟩
    have hmax : (k : Int) ≠ INT_MAX := by
      unfold INT_MAX; omega
    have hnext : (List.replicate N opn ++ 0 :: rest)[k + 1]? = some opn :=
      getElem?_replicate_append N opn _ (by omega)
    rw [strmbLoop]
    simp only [ne_eq, hopn, not_false_eq_true, ge_iff_le, Int.natCast_nonneg, and_self,
      if_true, hmax, if_false, rd_some hnext, ok_bind]
    have := ih (k + 1) f (by omega) (by omega)
    rw [Nat.cast_add, Nat.cast_one] at this
    exact this

/-- A string of `N > 2 ^ 31 - 1` bytes `opn` is within the premises of the
`strmb` property (no zero byte, no prefix with more `cls` than `opn` bytes, no
balanced index), and `strmb` ends on it in the overflow of `count`. -/
theorem strmb_all_open (N : Nat) (rest : List Int) (opn cls : Int) (hopn : opn ≠ 0)
    (hoc : opn ≠ cls) (hN : 2147483647 < N) :
    (∀ c ∈ List.replicate N opn, c ≠ 0) ∧
    (∀ k, ((List.replicate N opn).take k).count cls
      ≤ ((List.replicate N opn).take k).count opn) ∧
    (∀ j, ¬ balancedAt (List.replicate N opn) opn cls j) ∧
    strmb (List.replicate N opn ++ 0 :: rest) opn cls = fault Fault.overflow := by
  refine ⟨?_, ?_, ?_, ?_⟩
  · intro c hc
    rw [List.eq_of_mem_replicate hc]
    exact hopn
  · intro k
    have h0 : ((List.replicate N opn).take k).count cls = 0 := by
      apply List.count_eq_zero_of_not_mem
      intro hmem
      exact hoc (List.eq_of_mem_replicate (List.mem_of_mem_take hmem)).symm
    rw [h0]
    exact Nat.zero_le _
  · intro j hb
    have h1 := hb.1
    rw [List.getElem?_replicate] at h1
    split at h1
    · exact hoc (Option.some.inj h1)
    · exact absurd h1 (by simp)
  · have h0 : (List.replicate N opn ++ 0 :: rest)[0]? = some opn :=
      getElem?_replicate_append N opn _ (by omega)
    unfold strmb
    rw [rd_some h0]
    simp only [ok_bind]
    have := strmbLoop_all_open N rest opn cls hopn hN 2147483647 0
      ((List.replicate N opn ++ 0 :: rest).length + 1) (by omega)
      (by rw [List.length_append, List.length_replicate]; omega)
    rw [Nat.cast_zero] at this
    exact this

theorem strlcpyScan_spec (body rest : List Int) (hbody : ∀ c ∈ body, c ≠ 0) :
    ∀ (fuel p : Nat), p ≤ body.length → body.length < fuel + p →
      strlcpyScan (body ++ 0 :: rest) fuel p = ok (body.length + 1) := by
  intro fuel
  induction fuel with
  | zero => intro p h1 h2; omega
  | succ f ih =>
    intro p hp hfuel
    rw [strlcpyScan]
    by_cases hend : p = body.length
    · subst hend
      simp only [rd_some (getElem?_terminator body rest 0), ok_bind, ne_eq,
        not_true_eq_false, if_false]
    · have hpl : p < body.length := by omega
      have hc0 : body[p] ≠ 0 := hbody _ (List.getElem_mem hpl)
      simp only [rd_some (getElem?_body body _ hpl), ok_bind, ne_eq, hc0,
        not_false_eq_true, if_true]
      exact ih (p + 1) (by omega) (by omega)

theorem strlcpyCopy_spec (body rest : List Int) (hbody : ∀ c ∈ body, c ≠ 0) :
    ∀ (fuel : Nat) (dst : List Int) (p nn : Nat), 0 < nn → nn ≤ fuel →
      p + nn ≤ dst.length → p ≤ body.length →
      ∃ d q nn1, strlcpyCopy (body ++ 0 :: rest) fuel dst p nn = ok (d, q, nn1) ∧
        d.length = dst.length ∧
        (nn1 = 0 → q = p + nn - 1 ∧ q ≤ body.length) ∧
        (nn1 ≠ 0 → q = body.length + 1 ∧ q < p + nn) ∧
        (∀ i, p ≤ i → i < q → d[i]? = (body ++ 0 :: rest)[i]?) ∧
        (∀ i, (i < p ∨ q ≤ i) → d[i]? = dst[i]?) := by
  intro fuel
  induction fuel with
  | zero => intro dst p nn h1 h2; omega
  | succ f ih =>
    intro dst p nn hnn hfuel hcap hp
    rw [strlcpyCopy]
    simp only [decSize_pos hnn]
    by_cases hone : nn - 1 = 0
    · refine ⟨dst, p, 0, by simp [hone], rfl, fun _ => ⟨by omega, hp⟩,
        fun h => absurd rfl h, fun i h1 h2 => by omega, fun _ _ => rfl⟩
    · simp only [ne_eq, hone, not_false_eq_true, if_true]
      obtain ⟨c, hc⟩ := exists_getElem? (body ++ 0 :: rest) p (by simp; omega)
      simp only [rd_some hc, ok_bind, wr_ok c (show p < dst.length by omega)]
      have hset : ∀ i, i ≠ p → (dst.set p c)[i]? = dst[i]? :=
        fun i hi => List.getElem?_set_ne (Ne.symm hi)
      have hself : (dst.set p c)[p]? = (body ++ 0 :: rest)[p]? := by
        rw [List.getElem?_set_self (by omega), hc]
      by_cases hc0 : c = 0
      · have hpe : p = body.length := by
          by_contra hne
          have hpl : p < body.length := by omega
          rw [getElem?_body body _ hpl] at hc
          exact hbody _ (List.getElem_mem hpl) ((Option.some.inj hc).trans hc0)
        refine ⟨dst.set p c, p + 1, nn - 1, by simp [hc0], by simp,
          fun h => absurd h hone, fun _ => ⟨by omega, by omega⟩, ?_, ?_⟩
        · intro i h1 h2
          have : i = p := by omega
          subst this
          exact hself
        · intro i hi
          exact hset i (by omega)
      · have hpl : p < body.length := by
          by_contra hne
          have hpe : p = body.length := by omega
          rw [hpe, getElem?_terminator] at hc
          exact hc0 (Option.some.inj hc).symm
        simp only [hc0, if_false]
        obtain ⟨d, q, nn1, h1, h2, h3, h4, h5, h6⟩ :=
          ih (dst.set p c) (p + 1) (nn - 1) (by omega) (by omega) (by simp; omega) (by omega)
        refine ⟨d, q, nn1, h1, by simpa using h2, fun h => ?_, fun h => ?_, ?_, ?_⟩
        · have := h3 h; omega
        · have := h4 h; omega
        · intro i hi1 hi2
          by_cases hip : i = p
          · subst hip
            rw [h6 i (Or.inl (by omega))]
            exact hself
          · exact h5 i (by omega) hi2
        · intro i hi
          have hq : p + 1 ≤ q := by
            by_cases hn : nn1 = 0
            · have := h3 hn; omega
            · have := h4 hn; omega
          rw [h6 i (by omega)]
          exact hset i (by omega)

/-- C10: for a zero-terminated source (the bytes `body`, none of them zero,
followed by a zero byte) and a destination of at least `siz` bytes, `strlcpy`
returns the source length; when `siz > 0` it leaves the first
`k = min |body| (siz - 1)` bytes of the source and then a zero byte in the
destination; it leaves every byte at an offset `≥ siz` as it was, and with
`siz = 0` the whole destination. -/
theorem strlcpy_spec (dst body rest : List Int) (siz : Nat)
    (hbody : ∀ c ∈ body, c ≠ 0) (hdst : siz ≤ dst.length) :
    ∃ dst1, strlcpy dst (body ++ 0 :: rest) siz = ok (dst1, body.length) ∧
      dst1.length = dst.length ∧
      (0 < siz →
        (∀ i, i < min body.length (siz - 1) → dst1[i]? = (body ++ 0 :: rest)[i]?) ∧
        dst1[min body.length (siz - 1)]? = some 0) ∧
      (∀ i, siz ≤ i → dst1[i]? = dst[i]?) ∧
      (siz = 0 → dst1 = dst) := by
  have hscan := strlcpyScan_spec body rest hbody ((body ++ 0 :: rest).length + 1)
  have hdec : decSize (body.length + 1) = body.length := decSize_pos (Nat.succ_pos _)
  by_cases hs : siz = 0
  · subst hs
    refine ⟨dst, ?_, rfl, fun h => absurd h (Nat.lt_irrefl 0), fun _ _ => rfl, fun _ => rfl⟩
    unfold strlcpy
    simp only [ne_eq, not_true_eq_false, if_false, ok_bind, if_true]
    rw [hscan 0 (Nat.zero_le _) (by simp; omega)]
    simp only [ok_bind, hdec]
  · obtain ⟨d, q, nn1, h1, h2, h3, h4, h5, h6⟩ :=
      strlcpyCopy_spec body rest hbody siz dst 0 siz (by omega) (le_refl _) (by omega)
        (Nat.zero_le _)
    unfold strlcpy
    simp only [ne_eq, hs, not_false_eq_true, if_true, h1, ok_bind]
    by_cases hn : nn1 = 0
    · obtain ⟨hq, hql⟩ := h3 hn
      have hmin : min body.length (siz - 1) = q := by omega
      simp only [hn, if_true, wr_ok (0 : Int) (show q < d.length by omega), ok_bind]
      rw [hscan q hql (by simp; omega)]
      simp only [ok_bind, hdec]
      refine ⟨d.set q 0, rfl, by simp [h2], fun _ => ⟨?_, ?_⟩, ?_, fun h => h.elim⟩
      · intro i hi
        rw [List.getElem?_set_ne (by omega)]
        exact h5 i (Nat.zero_le _) (by omega)
      · rw [hmin, List.getElem?_set_self (by omega)]
      · intro i hi
        rw [List.getElem?_set_ne (by omega)]
        exact h6 i (Or.inr (by omega))
    · obtain ⟨hq, hql⟩ := h4 hn
      have hmin : min body.length (siz - 1) = body.length := by omega
      simp only [hn, if_false, hq, hdec]
      refine ⟨d, rfl, h2, fun _ => ⟨?_, ?_⟩, ?_, fun h => h.elim⟩
      · intro i hi
        exact h5 i (Nat.zero_le _) (by omega)
      · rw [hmin, h5 body.length (Nat.zero_le _) (by omega)]
        exact getElem?_terminator body rest 0
      · intro i hi
        exact h6 i (Or.inr (by omega))

theorem strlcpy_spec_witness :
    ∃ dst1, strlcpy [1, 1, 1, 1, 1] ([104, 105, 106] ++ 0 :: []) 3
        = ok (dst1, [104, 105, (106 : Int)].length) ∧
      dst1.length = [1, 1, 1, 1, (1 : Int)].length ∧
      (0 < 3 →
        (∀ i, i < min [104, 105, (106 : Int)].length (3 - 1) →
          dst1[i]? = ([104, 105, 106] ++ (0 : Int) :: [])[i]?) ∧
        dst1[min [104, 105, (106 : Int)].length (3 - 1)]? = some 0) ∧
      (∀ i, 3 ≤ i → dst1[i]? = [1, 1, 1, 1, (1 : Int)][i]?) ∧
      (3 = 0 → dst1 = [1, 1, 1, 1, 1]) :=
  strlcpy_spec [1, 1, 1, 1, 1] [104, 105, 106] [] 3 (by decide) (by decide)

/-! ## `strlcat` -/

theorem strlcatFind_eq_strnlenLoop (dst : List Int) :
    ∀ (nn dd : Nat), strlcatFind dst nn dd = strnlenLoop dst nn dd := by
  intro nn
  induction nn with
  | zero => intro dd; rfl
  | succ n ih =>
    intro dd
    rw [strlcatFind, strnlenLoop]
    simp only [ih]

theorem strlcatCopy_spec (body rest : List Int) (hbody : ∀ c ∈ body, c ≠ 0) :
    ∀ (fuel : Nat) (dst : List Int) (dd nn s : Nat), 1 ≤ nn → dd + nn ≤ dst.length →
      s ≤ body.length → body.length < fuel + s →
      ∃ dst1, strlcatCopy (body ++ 0 :: rest) fuel dst dd nn s
          = ok (dst1, dd + min (body.length - s) (nn - 1), body.length) ∧
        dst1.length = dst.length ∧
        (∀ i, i < min (body.length - s) (nn - 1) →
          dst1[dd + i]? = (body ++ 0 :: rest)[s + i]?) ∧
        (∀ i, (i < dd ∨ dd + min (body.length - s) (nn - 1) ≤ i) → dst1[i]? = dst[i]?) := by
  intro fuel
  induction fuel with
  | zero => intro dst dd nn s h1 h2 h3 h4; omega
  | succ f ih =>
    intro dst dd nn s hnn hcap hs hfuel
    rw [strlcatCopy]
    by_cases hend : s = body.length
    · subst hend
      simp only [rd_some (getElem?_terminator body rest 0), ok_bind, ne_eq,
        not_true_eq_false, if_false]
      have hmin0 : min (body.length - body.length) (nn - 1) = 0 := by
        rw [Nat.sub_self, Nat.zero_min]
      rw [hmin0]
      exact ⟨dst, rfl, rfl, fun i hi => absurd hi (Nat.not_lt_zero _), fun _ _ => rfl⟩
    · have hsl : s < body.length := by omega
      have hc : (body ++ 0 :: rest)[s]? = some (body[s]) := getElem?_body body _ hsl
      have hc0 : body[s] ≠ 0 := hbody _ (List.getElem_mem hsl)
      simp only [rd_some hc, ok_bind, ne_eq, hc0, not_false_eq_true, if_true]
      by_cases hone : nn = 1
      · subst hone
        simp only [not_true_eq_false, if_false]
        obtain ⟨dst1, g1, g2, g3, g4⟩ := ih dst dd 1 (s + 1) (le_refl _) hcap (by omega)
          (by omega)
        simp only [Nat.sub_self, Nat.min_zero, Nat.add_zero] at g1 g4 ⊢
        exact ⟨dst1, g1, g2, fun i hi => absurd hi (Nat.not_lt_zero _), g4⟩
      · simp only [hone, not_false_eq_true, if_true,
          wr_ok (body[s]) (show dd < dst.length by omega), ok_bind,
          decSize_pos (show 0 < nn by omega)]
        obtain ⟨dst1, g1, g2, g3, g4⟩ := ih (dst.set dd (body[s])) (dd + 1) (nn - 1) (s + 1)
          (by omega) (by simp; omega) (by omega) (by omega)
        have hmin : dd + 1 + min (body.length - (s + 1)) (nn - 1 - 1)
            = dd + min (body.length - s) (nn - 1) := by omega
        refine ⟨dst1, ?_, by simpa using g2, fun i hi => ?_, fun i hi => ?_⟩
        · rw [g1, hmin]
        · by_cases hi0 : i = 0
          · subst hi0
            rw [Nat.add_zero, Nat.add_zero, g4 dd (Or.inl (by omega)),
              List.getElem?_set_self (by omega), hc]
          · have := g3 (i - 1) (by omega)
            rw [show dd + 1 + (i - 1) = dd + i by omega,
              show s + 1 + (i - 1) = s + i by omega] at this
            exact this
        · rw [g4 i (by omega), List.getElem?_set_ne (by omega)]

/-- C11: for a zero-terminated source (the bytes `body`, none of them zero,
followed by a zero byte), a destination of at least `siz` bytes and
`d = strnlen dst siz`, `strlcat` returns `d + |body|`. If `d = siz` the
destination is left as it was. Otherwise its first `d` bytes are left as they
were, the next `k = min |body| (siz - d - 1)` bytes are those of the source
and a zero byte follows. No byte at an offset `≥ siz` is changed. -/
theorem strlcat_spec (dst body rest : List Int) (siz d : Nat)
    (hbody : ∀ c ∈ body, c ≠ 0) (hslen : body.length ≤ SIZE_MAX)
    (hdst : siz ≤ dst.length) (hd : strnlen dst siz = ok d) :
    ∃ dst1, strlcat dst (body ++ 0 :: rest) siz = ok (dst1, d + body.length) ∧
      dst1.length = dst.length ∧
      (d = siz → dst1 = dst) ∧
      (d < siz →
        (∀ i, i < d → dst1[i]? = dst[i]?) ∧
        (∀ i, i < min body.length (siz - d - 1) →
          dst1[d + i]? = (body ++ 0 :: rest)[i]?) ∧
        dst1[d + min body.length (siz - d - 1)]? = some 0) ∧
      (∀ i, siz ≤ i → dst1[i]? = dst[i]?) := by
  obtain ⟨hdle, _, _, _⟩ := strnlen_ok hd
  have hfind : strlcatFind dst siz 0 = ok d := by
    rw [strlcatFind_eq_strnlenLoop]; exact hd
  unfold strlcat
  simp only [hfind, ok_bind]
  by_cases hfull : siz - d = 0
  · have hds : d = siz := by omega
    simp only [hfull, if_true, strnlen_terminated body rest SIZE_MAX hbody hslen, ok_bind]
    exact ⟨dst, rfl, rfl, fun _ => rfl, fun h => absurd h (by omega), fun _ _ => rfl⟩
  · simp only [hfull, if_false]
    obtain ⟨dst1, g1, g2, g3, g4⟩ := strlcatCopy_spec body rest hbody
      ((body ++ 0 :: rest).length + 1) dst d (siz - d) 0 (by omega) (by omega)
      (Nat.zero_le _) (by simp; omega)
    simp only [Nat.sub_zero, Nat.zero_add] at g1 g3 g4
    simp only [g1, ok_bind,
      wr_ok (0 : Int) (show d + min body.length (siz - d - 1) < dst1.length by omega)]
    refine ⟨_, rfl, by simp [g2], fun h => absurd h (by omega), fun _ => ⟨?_, ?_, ?_⟩, ?_⟩
    · intro i hi
      rw [List.getElem?_set_ne (by omega)]
      exact g4 i (Or.inl hi)
    · intro i hi
      rw [List.getElem?_set_ne (by omega)]
      exact g3 i hi
    · rw [List.getElem?_set_self (by omega)]
    · intro i hi
      rw [List.getElem?_set_ne (by omega)]
      exact g4 i (Or.inr (by omega))

theorem strlcat_spec_witness :
    ∃ dst1, strlcat [97, 0, 1, 1, 1, 1] ([98, 99, 100, 101, 102] ++ 0 :: []) 4
        = ok (dst1, 1 + [98, 99, 100, 101, (102 : Int)].length) ∧
      dst1.length = [97, 0, 1, 1, 1, (1 : Int)].length ∧
      (1 = 4 → dst1 = [97, 0, 1, 1, 1, 1]) ∧
      (1 < 4 →
        (∀ i, i < 1 → dst1[i]? = [97, 0, 1, 1, 1, (1 : Int)][i]?) ∧
        (∀ i, i < min [98, 99, 100, 101, (102 : Int)].length (4 - 1 - 1) →
          dst1[1 + i]? = ([98, 99, 100, 101, 102] ++ (0 : Int) :: [])[i]?) ∧
        dst1[1 + min [98, 99, 100, 101, (102 : Int)].length (4 - 1 - 1)]? = some 0) ∧
      (∀ i, 4 ≤ i → dst1[i]? = [97, 0, 1, 1, 1, (1 : Int)][i]?) :=
  strlcat_spec [97, 0, 1, 1, 1, 1] [98, 99, 100, 101, 102] [] 4 1
    (by decide) (by decide) (by decide) (by decide)

/-! ## `strlcpy`: truncation -/

/-- C12, as stated, fails: copying `"abc"` into a destination of capacity 3,
`strlcpy` returns 3, which does not exceed the capacity, yet the copy is
truncated to `"ab"` (the byte at offset 2 is the terminator, not `'c'`). -/
theorem strlcpy_truncated_at_capacity :
    strlcpy [1, 1, 1] [97, 98, 99, 0] 3 = ok ([97, 98, 0], 3) ∧ ¬ (3 > 3) ∧
    ([97, 98, (0 : Int)])[2]? ≠ ([97, 98, 99, (0 : Int)])[2]? := by
  decide

/-- C12, amended: for a zero-terminated source (the bytes `body`, none of them
zero, followed by a zero byte) and a destination of capacity `siz > 0`, the
value returned by `strlcpy` is greater than or equal to `siz` exactly when the
copy is truncated, that is when the destination does not hold all of the
source, terminator included, after the call. -/
theorem strlcpy_truncation (dst body rest : List Int) (siz : Nat)
    (hbody : ∀ c ∈ body, c ≠ 0) (h0 : 0 < siz) (hdst : siz ≤ dst.length) :
    ∃ dst1 ret, strlcpy dst (body ++ 0 :: rest) siz = ok (dst1, ret) ∧
      (siz ≤ ret ↔ ¬ ∀ i, i ≤ body.length → dst1[i]? = (body ++ 0 :: rest)[i]?) := by
  have hscan := strlcpyScan_spec body rest hbody ((body ++ 0 :: rest).length + 1)
  have hdec : decSize (body.length + 1) = body.length := decSize_pos (Nat.succ_pos _)
  have hs : siz ≠ 0 := by omega
  obtain ⟨d, q, nn1, h1, h2, h3, h4, h5, h6⟩ :=
    strlcpyCopy_spec body rest hbody siz dst 0 siz h0 (le_refl _) (by omega) (Nat.zero_le _)
  unfold strlcpy
  simp only [ne_eq, hs, not_false_eq_true, if_true, h1, ok_bind]
  by_cases hn : nn1 = 0
  · obtain ⟨hq, hql⟩ := h3 hn
    simp only [hn, if_true, wr_ok (0 : Int) (show q < d.length by omega), ok_bind]
    rw [hscan q hql (by simp; omega)]
    simp only [ok_bind, hdec]
    refine ⟨d.set q 0, body.length, rfl, ?_⟩
    by_cases hqs : q = body.length
    · constructor
      · intro h; omega
      · intro h
        exfalso
        apply h
        intro i hi
        by_cases hiq : i = q
        · rw [hiq, List.getElem?_set_self (by omega), hqs, getElem?_terminator]
        · rw [List.getElem?_set_ne (by omega)]
          exact h5 i (Nat.zero_le _) (by omega)
    · constructor
      · intro _ hall
        have hq2 := hall q hql
        have hql2 : q < body.length := by omega
        rw [List.getElem?_set_self (by omega), getElem?_body body _ hql2] at hq2
        exact hbody _ (List.getElem_mem hql2) (Option.some.inj hq2).symm
      · intro _; omega
  · obtain ⟨hq, hql⟩ := h4 hn
    simp only [hn, if_false, hq, hdec]
    refine ⟨d, body.length, rfl, ?_⟩
    constructor
    · intro h; omega
    · intro h
      exfalso
      apply h
      intro i hi
      exact h5 i (Nat.zero_le _) (by omega)

theorem strlcpy_truncation_witness :
    ∃ dst1 ret, strlcpy [1, 1, 1] ([97, 98, 99] ++ 0 :: []) 3 = ok (dst1, ret) ∧
      (3 ≤ ret ↔ ¬ ∀ i, i ≤ [97, 98, (99 : Int)].length →
        dst1[i]? = ([97, 98, 99] ++ (0 : Int) :: [])[i]?) :=
  strlcpy_truncation [1, 1, 1] [97, 98, 99] [] 3 (by decide) (by decide) (by decide)

/-! ## `eolLF` -/

theorem removeCR_take_succ (l : List Int) (j : Nat) (hj : j < l.length) :
    removeCR (l.take (j + 1))
      = removeCR (l.take j) ++ (if l[j] = 13 then [] else [l[j]]) := by
  unfold removeCR
  rw [List.take_succ, List.filter_append, List.getElem?_eq_getElem hj]
  by_cases h : l[j] = 13 <;> simp [Option.toList, List.filter_cons, h]

theorem removeCR_take_getElem? (l : List Int) (j i : Nat)
    (hi : i < (removeCR (l.take j)).length) :
    (removeCR l)[i]? = (removeCR (l.take j))[i]? := by
  unfold removeCR at hi ⊢
  conv_lhs => rw [← List.take_append_drop j l, List.filter_append]
  exact List.getElem?_append_left hi

theorem removeCR_take_length_le (l : List Int) (j : Nat) :
    (removeCR (l.take j)).length ≤ (removeCR l).length := by
  unfold removeCR
  conv_rhs => rw [← List.take_append_drop j l, List.filter_append, List.length_append]
  exact Nat.le_add_right _ _

theorem eolLFLoop_spec (body rest : List Int) (hbody : ∀ c ∈ body, c ≠ 0) (endp : Nat)
    (out0 : List Int) (hcap : endp < out0.length) :
    ∀ (fuel : Nat) (out : List Int) (j : Nat) (ch : Int),
      j ≤ body.length → body.length < fuel + j →
      (body ++ 0 :: rest)[j]? = some ch →
      out.length = out0.length →
      (removeCR (body.take j)).length ≤ endp →
      (∀ i, i < (removeCR (body.take j)).length →
        out[i]? = (removeCR body)[i]?) →
      (∀ i, (removeCR (body.take j)).length ≤ i →
        out[i]? = out0[i]?) →
      ∃ out1, eolLFLoop (body ++ 0 :: rest) endp fuel out
            (removeCR (body.take j)).length (j + 1) ch
          = ok (out1, min (removeCR body).length endp) ∧
        out1.length = out0.length ∧
        (∀ i, i < min (removeCR body).length endp →
          out1[i]? = (removeCR body)[i]?) ∧
        (∀ i, min (removeCR body).length endp ≤ i →
          out1[i]? = out0[i]?) := by
  intro fuel
  induction fuel with
  | zero => intro out j ch h1 h2; omega
  | succ f ih =>
    intro out j ch hj hfuel hch hlen hle hpre hframe
    have hple := removeCR_take_length_le body j
    rw [eolLFLoop]
    by_cases hend : j = body.length
    · subst hend
      rw [getElem?_terminator] at hch
      have hch0 : ch = 0 := (Option.some.inj hch).symm
      simp only [hch0, ne_eq, not_true_eq_false, false_and, if_false]
      rw [List.take_length] at hle hpre hframe ⊢
      rw [Nat.min_eq_left hle]
      exact ⟨out, rfl, hlen, hpre, hframe⟩
    · have hjl : j < body.length := by omega
      rw [getElem?_body body _ hjl] at hch
      have hchj : body[j] = ch := Option.some.inj hch
      have hch0 : ch ≠ 0 := by
        rw [← hchj]; exact hbody _ (List.getElem_mem hjl)
      by_cases hfull : (removeCR (body.take j)).length < endp
      · simp only [ne_eq, hch0, not_false_eq_true, hfull, and_self, if_true]
        obtain ⟨c1, hnext⟩ := exists_getElem? (body ++ 0 :: rest) (j + 1) (by simp; omega)
        have hsucc := removeCR_take_succ body j hjl
        rw [hchj] at hsucc
        by_cases hcr : ch = 13
        · have hsame : removeCR (body.take (j + 1))
              = removeCR (body.take j) := by
            rw [hsucc]; simp [hcr]
          simp only [hcr, ne_eq, not_true_eq_false, if_false, rd_some hnext, ok_bind]
          have := ih out (j + 1) c1 (by omega) (by omega) hnext hlen
            (by rw [hsame]; exact hle) (by rw [hsame]; exact hpre)
            (by rw [hsame]; exact hframe)
          rw [hsame] at this
          exact this
        · have hgrow : removeCR (body.take (j + 1))
              = removeCR (body.take j) ++ [ch] := by
            rw [hsucc]; simp [hcr]
          have hlen1 : (removeCR (body.take (j + 1))).length
              = (removeCR (body.take j)).length + 1 := by
            rw [hgrow, List.length_append]; rfl
          simp only [ne_eq, Ne.symm hcr, not_false_eq_true, if_true,
            wr_ok ch (show (removeCR (body.take j)).length
              < out.length by omega), ok_bind, rd_some hnext]
          have := ih (out.set (removeCR (body.take j)).length ch)
            (j + 1) c1 (by omega) (by omega) hnext (by simpa using hlen)
            (by omega)
            (by
              intro i hi
              by_cases hio : i = (removeCR (body.take j)).length
              · rw [hio, List.getElem?_set_self (by omega),
                  removeCR_take_getElem? body (j + 1) _ (by omega), hgrow,
                  List.getElem?_append_right (le_refl _)]
                simp
              · rw [List.getElem?_set_ne (Ne.symm hio)]
                exact hpre i (by omega))
            (by
              intro i hi
              rw [List.getElem?_set_ne (by omega)]
              exact hframe i (by omega))
          rw [hlen1] at this
          exact this
      · have heq : (removeCR (body.take j)).length = endp := by
          omega
        simp only [ne_eq, hch0, not_false_eq_true, hfull, and_false, if_false]
        rw [Nat.min_eq_right (by omega), heq]
        rw [heq] at hpre hframe
        exact ⟨out, rfl, hlen, hpre, hframe⟩

/-- C13: for a zero-terminated source (the bytes `body`, none of them zero,
followed by a zero byte) and an output buffer of at least `size > 0` bytes,
`eolLF` leaves in it the first `size - 1` bytes of `body` with every
carriage-return byte removed (all of them if there are fewer), followed by a
zero byte, and changes no byte at an offset `≥ size`; with `size = 0` it
leaves the output buffer as it was. -/
theorem eolLF_spec (out body rest : List Int) (size : Nat)
    (hbody : ∀ c ∈ body, c ≠ 0) (hout : size ≤ out.length) :
    ∃ out1, eolLF out size (body ++ 0 :: rest) = ok out1 ∧
      out1.length = out.length ∧
      (0 < size →
        out1.take (min (removeCR body).length (size - 1))
          = (removeCR body).take (size - 1) ∧
        out1[min (removeCR body).length (size - 1)]? = some 0) ∧
      (∀ i, size ≤ i → out1[i]? = out[i]?) ∧
      (size = 0 → out1 = out) := by
  by_cases hs : 0 < size
  · obtain ⟨c0, h0⟩ := exists_getElem? (body ++ 0 :: rest) 0 (by simp)
    obtain ⟨o1, g1, g2, g3, g4⟩ := eolLFLoop_spec body rest hbody (size - 1) out (by omega)
      ((body ++ 0 :: rest).length + 1) out 0 c0 (Nat.zero_le _) (by simp; omega) h0 rfl
      (Nat.zero_le _) (fun i hi => absurd hi (Nat.not_lt_zero _)) (fun _ _ => rfl)
    have hnil : removeCR (List.take 0 body) = [] := rfl
    simp only [hnil, List.length_nil, Nat.zero_add] at g1
    unfold eolLF
    simp only [hs, if_true, rd_some h0, ok_bind, g1]
    rw [wr_ok (0 : Int) (by rw [g2]; omega)]
    refine ⟨_, rfl, by simp [g2], fun _ => ⟨?_, ?_⟩, ?_, fun h => absurd h (by omega)⟩
    · apply List.ext_getElem?
      intro i
      by_cases hi : i < min (removeCR body).length (size - 1)
      · rw [List.getElem?_take_of_lt hi, List.getElem?_set_ne (by omega), g3 i hi,
          List.getElem?_take_of_lt (by omega)]
      · rw [List.getElem?_take_eq_none (by omega)]
        symm
        by_cases hi2 : i < size - 1
        · rw [List.getElem?_take_of_lt hi2]
          exact List.getElem?_eq_none (by omega)
        · exact List.getElem?_take_eq_none (by omega)
    · rw [List.getElem?_set_self (by rw [g2]; omega)]
    · intro i hi
      rw [List.getElem?_set_ne (by omega)]
      exact g4 i (by omega)
  · unfold eolLF
    simp only [hs, if_false]
    exact ⟨out, rfl, rfl, fun h => h.elim, fun _ _ => rfl, fun _ => rfl⟩

theorem eolLF_spec_witness :
    ∃ out1, eolLF [1, 1, 1, 1, 1, 1] 4 ([97, 13, 10, 98, 99, 100] ++ 0 :: []) = ok out1 ∧
      out1.length = [1, 1, 1, 1, 1, (1 : Int)].length ∧
      (0 < 4 →
        out1.take (min (removeCR [97, 13, 10, 98, 99, 100]).length (4 - 1))
          = (removeCR [97, 13, 10, 98, 99, 100]).take (4 - 1) ∧
        out1[min (removeCR [97, 13, 10, 98, 99, 100]).length (4 - 1)]? = some 0) ∧
      (∀ i, 4 ≤ i → out1[i]? = [1, 1, 1, 1, 1, (1 : Int)][i]?) ∧
      (4 = 0 → out1 = [1, 1, 1, 1, 1, 1]) :=
  eolLF_spec [1, 1, 1, 1, 1, 1] [97, 13, 10, 98, 99, 100] [] 4 (by decide) (by decide)

/-! ## `strnl`, `baseName`, `strnws` and the bounded searches at concrete inputs -/

/-- C14: in `"a\nb\r\nc"` the first `'\n'` is at index 1, so the offset just
past the first line terminator is 2. `strnl` returns 5: it searches the whole
window for `"\r\n"` before it looks for a lone `"\n"`, and so skips the line
`"b"`. -/
theorem strnl_skips_lone_newline :
    ([97, 10, 98, 13, 10, 99, 0] : List Int)[1]? = some 10 ∧
    ([97, 10, 98, 13, 10, 99, 0] : List Int)[0]? ≠ some 10 ∧
    strnl [97, 10, 98, 13, 10, 99, 0] = ok 5 := by
  decide

/-- C15: in `"/a"` the last separator is at index 0, so the base name starts
at offset 1. `baseName` returns offset 0, the path itself: `strnrchr` never
tests index 0 and reports that the path holds no `'/'`. -/
theorem baseName_misses_leading_separator :
    ([47, 97, 0] : List Int)[0]? = some 47 ∧
    strnrchr [47, 97, 0] 47 SIZE_MAX = ok none ∧
    baseName [47, 97, 0] = ok 0 := by
  decide

/-- C17: the haystack is the three bytes `"abc"` with no zero byte and the
bound is 3; the needle buffer holds the empty needle and a spare byte, so every
read of the needle is inside it. `strnstr` reads the haystack at index 3,
outside the buffer; when a byte is there (here a zero) the result is even the
offset 3, outside the bound. -/
theorem strnstr_empty_needle_reads_past_bound :
    strnstr [97, 98, 99] [0, 0] 3 = fault Fault.oob ∧
    strnstr [97, 98, 99, 0] [0, 0] 3 = ok (some 3) := by
  decide

/-- C18: the buffer is the three bytes `"abc"` with no zero byte and the bound
is 3. `strnrchr` starts at index `strnlen = 3` and so reads the buffer at
index 3, outside it; when a byte is there (here `'x'`, the byte searched) the
result is the offset 3, outside the bound. -/
theorem strnrchr_reads_past_bound :
    strnlen [97, 98, 99] 3 = ok 3 ∧
    strnrchr [97, 98, 99] 120 3 = fault Fault.oob ∧
    strnrchr [97, 98, 99, 120] 120 3 = ok (some 3) := by
  decide

/-- C19: `"abc"` is zero-terminated and holds no whitespace byte. `strnws` does
not stop at the terminator (`isSpace` is false of the zero byte) and reads
past the end of the buffer; when memory goes on after the terminator (here the
string `"a"` followed by the bytes `'b'`, `' '`) the result is offset 3, past
the terminator at offset 1. -/
theorem strnws_runs_past_terminator :
    isSpace 0 = false ∧
    strnws [97, 98, 99, 0] = fault Fault.oob ∧
    strnws [97, 0, 98, 32] = ok 3 := by
  decide

/-! ## `prettify` -/

theorem cstr_append_zero (a b : List Int) : cstr (a ++ 0 :: b) = cstr a := by
  unfold cstr
  induction a with
  | nil => rfl
  | cons x a ih =>
    rw [List.cons_append, List.takeWhile_cons, List.takeWhile_cons, ih]

theorem snprintfText_fits (out text : List Int) (count : Nat)
    (hlen : text.length < count) (hout : count ≤ out.length) :
    snprintfText out count text
      = ok (text ++ 0 :: out.drop (text.length + 1), text.length) := by
  unfold snprintfText
  have hk : min text.length (count - 1) = text.length := by omega
  rw [if_neg (by omega)]
  simp only [hk]
  rw [if_pos (by omega), List.take_length]

/-- The call of `prettify` once the loop result, the suffix letter and the
formatted text are known: with room for the text, the output buffer holds the
text as a C string. -/
theorem prettify_of_text (out : List Int) (count size sz m e idx : Nat) (c1 : Int)
    (text : List Int)
    (hloop : prettifyLoop 10 size (toDouble size, 0) 0 = ok (sz, (m, e), idx))
    (hc1 : rd [66, 107, 77, 71, 84, 80, 69, 90, 89, 0] idx = ok c1)
    (htext : formatFixed2 m e ++ [32, c1, if idx > 0 then 66 else 0] = text)
    (hlen : text.length < count) (hout : count ≤ out.length) :
    ∃ o, prettify out count size = ok o ∧ cstr o = cstr text := by
  unfold prettify
  rw [hloop]
  simp only [ok_bind, hc1, htext, snprintfText_fits out text count hlen hout]
  exact ⟨_, rfl, cstr_append_zero _ _⟩

/-- C16, as stated, fails: in an output buffer of 16 bytes `prettify` does not
leave `"1.50 KB"` for the size 1536 nor `"1.00 TB"` for the size `2 ^ 40`. -/
theorem prettify_not_as_claimed :
    (∃ o, prettify (List.replicate 16 0) 16 1536 = ok o ∧
      cstr o ≠ [49, 46, 53, 48, 32, 75, 66]) ∧
    (∃ o, prettify (List.replicate 16 0) 16 1099511627776 = ok o ∧
      cstr o ≠ [49, 46, 48, 48, 32, 84, 66]) := by
  constructor
  · obtain ⟨o, h1, h2⟩ := prettify_of_text (List.replicate 16 0) 16 1536 1536 1536 0 0 66
      [49, 53, 51, 54, 46, 48, 48, 32, 66, 0] (by decide) (by decide) (by decide)
      (by decide) (by decide)
    refine ⟨o, h1, ?_⟩
    rw [h2]
    decide
  · obtain ⟨o, h1, h2⟩ := prettify_of_text (List.replicate 16 0) 16 1099511627776 1024
      1099511627776 30 3 71 [49, 48, 50, 52, 46, 48, 48, 32, 71, 66] (by decide) (by decide)
      (by decide) (by decide) (by decide)
    refine ⟨o, h1, ?_⟩
    rw [h2]
    decide

/-- C16, amended: with an output buffer of at least 16 bytes, `prettify` yields
`"1536.00 B"` for the size 1536, `"0.00 B"` for the size 0 and `"1024.00 GB"`
for the size `2 ^ 40`: the size is divided by 1024 once per scaling step, the
scaling stops as soon as the size is below 2048, the number is printed with
two decimals and the suffix letter is selected by the number of steps. -/
theorem prettify_examples (out : List Int) (count : Nat)
    (hcount : 16 ≤ count) (hout : count ≤ out.length) :
    (∃ o, prettify out count 1536 = ok o ∧
      cstr o = [49, 53, 51, 54, 46, 48, 48, 32, 66]) ∧
    (∃ o, prettify out count 0 = ok o ∧
      cstr o = [48, 46, 48, 48, 32, 66]) ∧
    (∃ o, prettify out count 1099511627776 = ok o ∧
      cstr o = [49, 48, 50, 52, 46, 48, 48, 32, 71, 66]) := by
  refine ⟨?_, ?_, ?_⟩
  · obtain ⟨o, h1, h2⟩ := prettify_of_text out count 1536 1536 1536 0 0 66
      [49, 53, 51, 54, 46, 48, 48, 32, 66, 0] (by decide) (by decide) (by decide)
      (by simp only [List.length_cons, List.length_nil]; omega) hout
    exact ⟨o, h1, by rw [h2]; decide⟩
  · obtain ⟨o, h1, h2⟩ := prettify_of_text out count 0 0 0 0 0 66
      [48, 46, 48, 48, 32, 66, 0] (by decide) (by decide) (by decide)
      (by simp only [List.length_cons, List.length_nil]; omega) hout
    exact ⟨o, h1, by rw [h2]; decide⟩
  · obtain ⟨o, h1, h2⟩ := prettify_of_text out count 1099511627776 1024
      1099511627776 30 3 71 [49, 48, 50, 52, 46, 48, 48, 32, 71, 66] (by decide) (by decide)
      (by decide) (by simp only [List.length_cons, List.length_nil]; omega) hout
    exact ⟨o, h1, by rw [h2]; decide⟩

theorem prettify_examples_witness :
    (∃ o, prettify (List.replicate 16 0) 16 1536 = ok o ∧
      cstr o = [49, 53, 51, 54, 46, 48, 48, 32, 66]) ∧
    (∃ o, prettify (List.replicate 16 0) 16 0 = ok o ∧
      cstr o = [48, 46, 48, 48, 32, 66]) ∧
    (∃ o, prettify (List.replicate 16 0) 16 1099511627776 = ok o ∧
      cstr o = [49, 48, 50, 52, 46, 48, 48, 32, 71, 66]) :=
  prettify_examples (List.replicate 16 0) 16 (by decide) (by decide)

theorem prettifyLoop_spec (m : Nat) :
    ∀ (n fuel sz e idx : Nat), sz < 2048 * 1024 ^ n → n < fuel → idx + n ≤ 9 →
      ∃ k, k ≤ n ∧
        prettifyLoop fuel sz (m, e) idx = ok (sz / 1024 ^ k, (m, e + 10 * k), idx + k) ∧
        sz / 1024 ^ k < 2048 ∧ ∀ j, j < k → 2048 ≤ sz / 1024 ^ j := by
  have hmask : ∀ sz : Nat, sz &&& 0x7ff = sz % 2048 := by
    intro sz
    exact Nat.and_pow_two_sub_one_eq_mod sz 11
  have hshift : ∀ sz : Nat, sz >>> 10 = sz / 1024 := by
    intro sz
    exact Nat.shiftRight_eq_div_pow sz 10
  have hstop : ∀ (fuel sz e idx : Nat), sz < 2048 →
      prettifyLoop (fuel + 1) sz (m, e) idx = ok (sz, (m, e), idx) := by
    intro fuel sz e idx hsz
    rw [prettifyLoop, hmask]
    have : sz % 2048 = sz := Nat.mod_eq_of_lt hsz
    simp only [this, ne_eq, not_true_eq_false, false_and, if_false]
  intro n
  induction n with
  | zero =>
    intro fuel sz e idx hsz hfuel _
    obtain ⟨f, rfl⟩ : ∃ f, fuel = f + 1 := ⟨fuel - 1, by omega⟩
    refine ⟨0, le_refl _, ?_, ?_, fun j hj => absurd hj (Nat.not_lt_zero _)⟩
    · rw [hstop f sz e idx (by omega)]
      simp
    · simp only [pow_zero, Nat.div_one]; omega
  | succ n ih =>
    intro fuel sz e idx hsz hfuel hidx
    obtain ⟨f, rfl⟩ : ∃ f, fuel = f + 1 := ⟨fuel - 1, by omega⟩
    by_cases hlt : sz < 2048
    · refine ⟨0, Nat.zero_le _, ?_, ?_, fun j hj => absurd hj (Nat.not_lt_zero _)⟩
      · rw [hstop f sz e idx hlt]
        simp
      · simp only [pow_zero, Nat.div_one]; exact hlt
    · have hne : sz ≠ sz % 2048 := by omega
      have hdiv : sz / 1024 < 2048 * 1024 ^ n := by
        apply Nat.div_lt_of_lt_mul
        rw [pow_succ] at hsz
        calc sz < 2048 * (1024 ^ n * 1024) := hsz
          _ = 1024 * (2048 * 1024 ^ n) := by ring
      obtain ⟨k, hk1, hk2, hk3, hk4⟩ := ih f (sz / 1024) (e + 10) (idx + 1) hdiv (by omega)
        (by omega)
      have hpow : ∀ j, sz / 1024 / 1024 ^ j = sz / 1024 ^ (j + 1) := by
        intro j
        rw [Nat.div_div_eq_div_mul, pow_succ, Nat.mul_comm]
      refine ⟨k + 1, by omega, ?_, ?_, ?_⟩
      · rw [prettifyLoop, hmask, hshift]
        simp only [ne_eq, hne, not_false_eq_true, show idx < 9 by omega, and_self, if_true]
        rw [hk2, hpow]
        congr 3
        · congr 1; omega
        · omega
      · rw [← hpow]; exact hk3
      · intro j hj
        by_cases hj0 : j = 0
        · subst hj0
          simp only [pow_zero, Nat.div_one]; omega
        · have := hk4 (j - 1) (by omega)
          rw [hpow, show j - 1 + 1 = j by omega] at this
          exact this

/-- C20: for every 64-bit unsigned `size`, the scaling loop of `prettify`
performs `k ≤ 6` divisions by 1024 (so the index `k` into the suffix table is
in range and the cap of 9 divisions is never what stops the loop); when it
stops the remaining magnitude `size / 1024 ^ k` is below 2048, and `k` is the
least number of divisions for which that holds. -/
theorem prettify_scaling (size : Nat) (hsize : size < 2 ^ 64) :
    ∃ k d, prettifyLoop 10 size (toDouble size, 0) 0 = ok (size / 1024 ^ k, d, k) ∧
      k ≤ 6 ∧ k < 9 ∧ size / 1024 ^ k < 2048 ∧
      (∀ j, j < k → 2048 ≤ size / 1024 ^ j) ∧
      (∃ c, rd [66, 107, 77, 71, 84, 80, 69, 90, 89, 0] k = ok c ∧ c ≠ 0) := by
  obtain ⟨k, hk1, hk2, hk3, hk4⟩ := prettifyLoop_spec (toDouble size) 6 10 size 0 0
    (by
      have : (2048 : Nat) * 1024 ^ 6 = 2 ^ 71 := by norm_num
      rw [this]
      exact Nat.lt_trans hsize (by norm_num))
    (by omega) (by omega)
  rw [Nat.zero_add, Nat.zero_add] at hk2
  refine ⟨k, _, hk2, hk1, by omega, hk3, hk4, ?_⟩
  have hk6 : k = 0 ∨ k = 1 ∨ k = 2 ∨ k = 3 ∨ k = 4 ∨ k = 5 ∨ k = 6 := by omega
  rcases hk6 with h | h | h | h | h | h | h <;> subst h <;> exact ⟨_, rfl, by decide⟩

theorem prettify_scaling_witness :
    ∃ k d, prettifyLoop 10 1099511627776 (toDouble 1099511627776, 0) 0
        = ok (1099511627776 / 1024 ^ k, d, k) ∧
      k ≤ 6 ∧ k < 9 ∧ 1099511627776 / 1024 ^ k < 2048 ∧
      (∀ j, j < k → 2048 ≤ 1099511627776 / 1024 ^ j) ∧
      (∃ c, rd [66, 107, 77, 71, 84, 80, 69, 90, 89, 0] k = ok c ∧ c ≠ 0) :=
  prettify_scaling 1099511627776 (by norm_num)

/-! ## Iteration budgets

The budgets that `strnstr`, `stristr`, `strmb` and `strlcpy` give to their
loops are never used up: the fault `Fault.fuel` is not a result of these
functions on any input. -/

theorem ok_ne_fuel {α : Type} (a : α) : (ok a : Outcome α) ≠ fault Fault.fuel :=
  fun h => Outcome.noConfusion h

theorem oob_ne_fuel {α : Type} : (fault Fault.oob : Outcome α) ≠ fault Fault.fuel :=
  fun h => Fault.noConfusion (fault.inj h)

theorem overflow_ne_fuel {α : Type} :
    (fault Fault.overflow : Outcome α) ≠ fault Fault.fuel :=
  fun h => Fault.noConfusion (fault.inj h)

theorem rd_lt {buf : List Int} {i : Nat} {c : Int} (h : rd buf i = ok c) :
    i < buf.length :=
  (List.getElem?_eq_some_iff.mp (rd_eq_ok.mp h)).1

theorem rd_cases (buf : List Int) (i : Nat) :
    rd buf i = fault Fault.oob ∨ ∃ c, rd buf i = ok c ∧ i < buf.length := by
  cases h : buf[i]? with
  | none => exact Or.inl (rd_none h)
  | some c => exact Or.inr ⟨c, rd_some h, rd_lt (rd_some h)⟩

theorem strnlenLoop_ne_fuel (str : List Int) :
    ∀ (max ptr : Nat), strnlenLoop str max ptr ≠ fault Fault.fuel := by
  intro max
  induction max with
  | zero => intro ptr h; simp [strnlenLoop] at h
  | succ m ih =>
    intro ptr
    rw [strnlenLoop]
    rcases rd_cases str ptr with h | ⟨c, h, _⟩
    · rw [h]; exact oob_ne_fuel
    · rw [h]
      simp only [ok_bind]
      split
      · exact ih (ptr + 1)
      · exact ok_ne_fuel _

theorem strnstrSkip_budget (str find : List Int) (findLen : Nat) :
    ∀ (fuel ptr sl : Nat), 0 < fuel → str.length < fuel + ptr →
      strnstrSkip str find findLen fuel ptr sl ≠ fault Fault.fuel ∧
      ∀ p s, strnstrSkip str find findLen fuel ptr sl = ok (some (p, s)) →
        ptr ≤ p ∧ p < str.length := by
  intro fuel
  induction fuel with
  | zero => intro ptr sl h; omega
  | succ f ih =>
    intro ptr sl _ hfuel
    rw [strnstrSkip]
    rcases rd_cases str ptr with h | ⟨c, h, hlt⟩
    · rw [h]
      exact ⟨oob_ne_fuel, fun p s hc => Outcome.noConfusion hc⟩
    · rw [h]
      simp only [ok_bind]
      rcases rd_cases find 0 with h0 | ⟨d, h0, _⟩
      · rw [h0]
        exact ⟨oob_ne_fuel, fun p s hc => Outcome.noConfusion hc⟩
      · rw [h0]
        simp only [ok_bind]
        by_cases hcd : c = d
        · simp only [hcd, ne_eq, not_true_eq_false, if_false]
          refine ⟨ok_ne_fuel _, fun p s hc => ?_⟩
          simp only [ok.injEq, Option.some.injEq, Prod.mk.injEq] at hc
          omega
        · simp only [ne_eq, hcd, not_false_eq_true, if_true]
          split
          · refine ⟨ok_ne_fuel _, fun p s hc => ?_⟩
            simp only [ok.injEq, reduceCtorEq] at hc
          · obtain ⟨g1, g2⟩ := ih (ptr + 1) (decSize sl) (by omega) (by omega)
            refine ⟨g1, fun p s hc => ?_⟩
            have := g2 p s hc
            omega

theorem strnstrCompare_budget (str find : List Int) :
    ∀ (fuel s q : Nat), 0 < fuel → find.length < fuel + q →
      strnstrCompare str find fuel s q ≠ fault Fault.fuel := by
  intro fuel
  induction fuel with
  | zero => intro s q h; omega
  | succ f ih =>
    intro s q _ hfuel
    rw [strnstrCompare]
    rcases rd_cases str s with h | ⟨a, h, _⟩
    · rw [h]; exact oob_ne_fuel
    · rw [h]
      simp only [ok_bind]
      rcases rd_cases find q with h0 | ⟨b, h0, hq⟩
      · rw [h0]; exact oob_ne_fuel
      · rw [h0]
        simp only [ok_bind]
        split
        · rcases rd_cases find (q + 1) with h1 | ⟨e, h1, hq1⟩
          · rw [h1]; exact oob_ne_fuel
          · rw [h1]
            simp only [ok_bind]
            split
            · exact ok_ne_fuel _
            · exact ih (s + 1) (q + 1) (by omega) (by omega)
        · exact ok_ne_fuel _

theorem strnstrLoop_budget (str find : List Int) (findLen : Nat) :
    ∀ (fuel ptr sl : Nat), 0 < fuel → str.length < fuel + ptr →
      strnstrLoop str find findLen fuel ptr sl ≠ fault Fault.fuel := by
  intro fuel
  induction fuel with
  | zero => intro ptr sl h; omega
  | succ f ih =>
    intro ptr sl _ hfuel
    rw [strnstrLoop]
    split
    · obtain ⟨g1, g2⟩ := strnstrSkip_budget str find findLen (str.length + 1) ptr sl
        (Nat.succ_pos _) (by omega)
      cases hskip : strnstrSkip str find findLen (str.length + 1) ptr sl with
      | fault e =>
        simp only [fault_bind]
        intro hc
        rw [fault.inj hc] at hskip
        exact g1 hskip
      | ok r =>
        simp only [ok_bind]
        cases r with
        | none => exact ok_ne_fuel _
        | some ps =>
          obtain ⟨p, s⟩ := ps
          obtain ⟨hp1, hp2⟩ := g2 p s hskip
          simp only
          have gc := strnstrCompare_budget str find (find.length + 1) p 0
            (Nat.succ_pos _) (by omega)
          cases hcmp : strnstrCompare str find (find.length + 1) p 0 with
          | fault e =>
            simp only [fault_bind]
            intro hc
            rw [fault.inj hc] at hcmp
            exact gc hcmp
          | ok found =>
            simp only [ok_bind]
            split
            · exact ok_ne_fuel _
            · exact ih (p + 1) (decSize s) (by omega) (by omega)
    · exact ok_ne_fuel _

/-- `strnstr` never exhausts the budgets of its loops. -/
theorem strnstr_ne_fuel (str find : List Int) (max : Nat) :
    strnstr str find max ≠ fault Fault.fuel := by
  unfold strnstr
  cases h1 : strnlen str max with
  | fault e =>
    simp only [fault_bind]
    intro hc
    rw [fault.inj hc] at h1
    exact strnlenLoop_ne_fuel str max 0 h1
  | ok n =>
    simp only [ok_bind]
    cases h2 : strnlen find SIZE_MAX with
    | fault e =>
      simp only [fault_bind]
      intro hc
      rw [fault.inj hc] at h2
      exact strnlenLoop_ne_fuel find SIZE_MAX 0 h2
    | ok m =>
      simp only [ok_bind]
      exact strnstrLoop_budget str find m (str.length + 1) 0 n (Nat.succ_pos _) (by omega)

/-- `stristr` never exhausts the budgets of its loops. -/
theorem stristr_ne_fuel (str find : List Int) (max : Nat) :
    stristr str find max ≠ fault Fault.fuel := by
  have h : stristr str find max = strnstr (str.map toLower) (find.map toLower) max := by
    unfold stristr strnstr
    simp only [strnlen_map_toLower, stristrLoop_eq, List.length_map]
  rw [h]
  exact strnstr_ne_fuel _ _ max

theorem strmbLoop_budget (str : List Int) (opn cls : Int) :
    ∀ (fuel p : Nat) (ch count : Int), 0 < fuel → str.length < fuel + p →
      strmbLoop str opn cls fuel p ch count ≠ fault Fault.fuel := by
  intro fuel
  induction fuel with
  | zero => intro p ch count h; omega
  | succ f ih =>
    intro p ch count _ hfuel
    have hnext : ∀ c : Int, (rd str p >>= fun ch1 => strmbLoop str opn cls f (p + 1) ch1 c)
        ≠ fault Fault.fuel := by
      intro c
      rcases rd_cases str p with h | ⟨a, h, hlt⟩
      · rw [h]; exact oob_ne_fuel
      · rw [h]
        simp only [ok_bind]
        exact ih (p + 1) a c (by omega) (by omega)
    rw [strmbLoop]
    split
    · split
      · split
        · exact overflow_ne_fuel
        · exact hnext _
      · split
        · simp only
          split
          · exact ok_ne_fuel _
          · exact hnext _
        · exact hnext _
    · exact ok_ne_fuel _

/-- `strmb` never exhausts the budget of its loop. -/
theorem strmb_ne_fuel (str : List Int) (opn cls : Int) :
    strmb str opn cls ≠ fault Fault.fuel := by
  unfold strmb
  rcases rd_cases str 0 with h | ⟨c, h, _⟩
  · rw [h]; exact oob_ne_fuel
  · rw [h]
    simp only [ok_bind]
    exact strmbLoop_budget str opn cls (str.length + 1) 1 c 0 (Nat.succ_pos _) (by omega)

theorem strlcpyCopy_budget (src : List Int) :
    ∀ (fuel : Nat) (dst : List Int) (p nn : Nat), 0 < nn → nn ≤ fuel →
      strlcpyCopy src fuel dst p nn ≠ fault Fault.fuel := by
  intro fuel
  induction fuel with
  | zero => intro dst p nn h1 h2; omega
  | succ f ih =>
    intro dst p nn hnn hfuel
    rw [strlcpyCopy]
    simp only [decSize_pos hnn]
    split
    · rcases rd_cases src p with h | ⟨c, h, _⟩
      · rw [h]; exact oob_ne_fuel
      · rw [h]
        simp only [ok_bind]
        unfold wr
        split
        · simp only [ok_bind]
          split
          · exact ok_ne_fuel _
          · exact ih _ (p + 1) (nn - 1) (by omega) (by omega)
        · exact oob_ne_fuel
    · exact ok_ne_fuel _

theorem strlcpyScan_budget (src : List Int) :
    ∀ (fuel ss : Nat), 0 < fuel → src.length < fuel + ss →
      (strlcpyScan src fuel ss = fault Fault.oob ∨ ∃ r, strlcpyScan src fuel ss = ok r) := by
  intro fuel
  induction fuel with
  | zero => intro ss h; omega
  | succ f ih =>
    intro ss _ hfuel
    rw [strlcpyScan]
    rcases rd_cases src ss with h | ⟨c, h, hlt⟩
    · rw [h]; exact Or.inl rfl
    · rw [h]
      simp only [ok_bind]
      split
      · exact ih (ss + 1) (by omega) (by omega)
      · exact Or.inr ⟨_, rfl⟩

/-- `strlcpy` never exhausts the budgets of its loops. -/
theorem strlcpy_ne_fuel (dst src : List Int) (siz : Nat) :
    strlcpy dst src siz ≠ fault Fault.fuel := by
  have hscan : ∀ (d : List Int) (p : Nat),
      (strlcpyScan src (src.length + 1) p >>= fun ss => ok (d, decSize ss))
        ≠ (fault Fault.fuel : Outcome (List Int × Nat)) := by
    intro d p
    rcases strlcpyScan_budget src (src.length + 1) p (Nat.succ_pos _) (by omega) with
      h | ⟨r, h⟩
    · rw [h]; exact oob_ne_fuel
    · rw [h]; exact ok_ne_fuel _
  unfold strlcpy
  by_cases hs : siz = 0
  · subst hs
    simp only [ne_eq, not_true_eq_false, if_false, ok_bind, if_true]
    exact hscan dst 0
  · simp only [ne_eq, hs, not_false_eq_true, if_true]
    cases hcopy : strlcpyCopy src siz dst 0 siz with
    | fault e =>
      simp only [fault_bind]
      intro hc
      rw [fault.inj hc] at hcopy
      exact strlcpyCopy_budget src siz dst 0 siz (by omega) (le_refl _) hcopy
    | ok r =>
      obtain ⟨d, p, nn⟩ := r
      simp only [ok_bind]
      split
      · unfold wr
        split
        · simp only [ok_bind]
          exact hscan _ p
        · exact oob_ne_fuel
      · exact ok_ne_fuel _

/-! ## Iteration budgets of `strnl`, `strnws`, `eolLF`, `prettify` and `strlcat` -/

theorem strnwsLoop_budget (str : List Int) :
    ∀ (fuel p : Nat), 0 < fuel → str.length < fuel + p →
      strnwsLoop str fuel p ≠ fault Fault.fuel := by
  intro fuel
  induction fuel with
  | zero => intro p h; omega
  | succ f ih =>
    intro p _ hfuel
    rw [strnwsLoop]
    rcases rd_cases str p with h | ⟨c, h, hlt⟩
    · rw [h]; exact oob_ne_fuel
    · rw [h]
      simp only [ok_bind]
      split
      · exact ih (p + 1) (by omega) (by omega)
      · exact ok_ne_fuel _

/-- `strnws` never exhausts the budget of its loop. -/
theorem strnws_ne_fuel (str : List Int) : strnws str ≠ fault Fault.fuel :=
  strnwsLoop_budget str (str.length + 1) 0 (Nat.succ_pos _) (by omega)

theorem strnlen_pos {buf : List Int} {max n : Nat} {c : Int}
    (h : strnlen buf (max + 1) = ok n) (hc : buf[0]? = some c) (hc0 : c ≠ 0) : 1 ≤ n := by
  obtain ⟨_, _, _, h4⟩ := strnlen_ok h
  by_contra hcon
  have hn : n = 0 := by omega
  subst hn
  have := h4 (Nat.succ_pos _)
  rw [hc] at this
  exact hc0 (Option.some.inj this)

theorem strnlLoop_budget (str : List Int) :
    ∀ (fuel p : Nat), 0 < fuel → str.length < fuel + p →
      strnlLoop str fuel p ≠ fault Fault.fuel := by
  intro fuel
  induction fuel with
  | zero => intro p h; omega
  | succ f ih =>
    intro p _ hfuel
    rw [strnlLoop]
    rcases rd_cases str p with h | ⟨c, h, hlt⟩
    · rw [h]; exact oob_ne_fuel
    · rw [h]
      simp only [ok_bind]
      split
      · rename_i hc0
        cases h1 : strnstr (str.drop p) [13, 10, 0] 1024 with
        | fault e =>
          simp only [fault_bind]
          intro hc
          rw [fault.inj hc] at h1
          exact strnstr_ne_fuel _ _ _ h1
        | ok r1 =>
          simp only [ok_bind]
          cases r1 with
          | some e1 => exact ok_ne_fuel _
          | none =>
            simp only
            cases h2 : strnstr (str.drop p) [10, 0] 1024 with
            | fault e =>
              simp only [fault_bind]
              intro hc
              rw [fault.inj hc] at h2
              exact strnstr_ne_fuel _ _ _ h2
            | ok r2 =>
              simp only [ok_bind]
              cases r2 with
              | some e2 => exact ok_ne_fuel _
              | none =>
                simp only
                cases h3 : strnlen (str.drop p) 1024 with
                | fault e =>
                  simp only [fault_bind]
                  intro hc
                  rw [fault.inj hc] at h3
                  exact strnlenLoop_ne_fuel _ _ _ h3
                | ok n =>
                  simp only [ok_bind]
                  have hfirst : (str.drop p)[0]? = some c := by
                    rw [List.getElem?_drop, Nat.add_zero]; exact rd_eq_ok.mp h
                  have hn := strnlen_pos h3 hfirst (Ne.symm hc0)
                  exact ih (p + n) (by omega) (by omega)
      · exact ok_ne_fuel _

/-- `strnl` never exhausts the budget of its loop. -/
theorem strnl_ne_fuel (str : List Int) : strnl str ≠ fault Fault.fuel :=
  strnlLoop_budget str (str.length + 1) 0 (Nat.succ_pos _) (by omega)

theorem eolLFLoop_budget (str : List Int) (endp : Nat) :
    ∀ (fuel : Nat) (out : List Int) (o sp : Nat) (ch : Int), 0 < fuel →
      str.length < fuel + sp →
      eolLFLoop str endp fuel out o sp ch ≠ fault Fault.fuel := by
  intro fuel
  induction fuel with
  | zero => intro out o sp ch h; omega
  | succ f ih =>
    intro out o sp ch _ hfuel
    have hnext : ∀ (out1 : List Int) (o1 : Nat),
        (rd str sp >>= fun ch1 => eolLFLoop str endp f out1 o1 (sp + 1) ch1)
          ≠ fault Fault.fuel := by
      intro out1 o1
      rcases rd_cases str sp with h | ⟨a, h, hlt⟩
      · rw [h]; exact oob_ne_fuel
      · rw [h]
        simp only [ok_bind]
        exact ih out1 o1 (sp + 1) a (by omega) (by omega)
    rw [eolLFLoop]
    split
    · split
      · unfold wr
        split
        · simp only [ok_bind]
          exact hnext _ _
        · exact oob_ne_fuel
      · exact hnext _ _
    · exact ok_ne_fuel _

/-- `eolLF` never exhausts the budget of its loop. -/
theorem eolLF_ne_fuel (out : List Int) (size : Nat) (str : List Int) :
    eolLF out size str ≠ fault Fault.fuel := by
  unfold eolLF
  split
  · rcases rd_cases str 0 with h | ⟨c, h, _⟩
    · rw [h]; exact oob_ne_fuel
    · rw [h]
      simp only [ok_bind]
      cases hloop : eolLFLoop str (size - 1) (str.length + 1) out 0 1 c with
      | fault e =>
        simp only [fault_bind]
        intro hc
        rw [fault.inj hc] at hloop
        exact eolLFLoop_budget str (size - 1) (str.length + 1) out 0 1 c (Nat.succ_pos _)
          (by omega) hloop
      | ok r =>
        obtain ⟨out1, o⟩ := r
        simp only [ok_bind]
        unfold wr
        split
        · exact ok_ne_fuel _
        · exact oob_ne_fuel
  · exact ok_ne_fuel _

theorem prettifyLoop_budget :
    ∀ (fuel sz : Nat) (d : Nat × Nat) (idx : Nat), 0 < fuel → 9 < fuel + idx →
      prettifyLoop fuel sz d idx ≠ fault Fault.fuel := by
  intro fuel
  induction fuel with
  | zero => intro sz d idx h; omega
  | succ f ih =>
    intro sz d idx _ hfuel
    obtain ⟨m, e⟩ := d
    rw [prettifyLoop]
    split
    · rename_i hcond
      exact ih _ _ _ (by omega) (by omega)
    · exact ok_ne_fuel _

theorem snprintfText_ne_fuel (out : List Int) (count : Nat) (text : List Int) :
    snprintfText out count text ≠ fault Fault.fuel := by
  unfold snprintfText
  split
  · exact ok_ne_fuel _
  · simp only
    split
    · exact ok_ne_fuel _
    · exact oob_ne_fuel

/-- `prettify` never exhausts the budget of its loop. -/
theorem prettify_ne_fuel (out : List Int) (count size : Nat) :
    prettify out count size ≠ fault Fault.fuel := by
  unfold prettify
  cases h1 : prettifyLoop 10 size (toDouble size, 0) 0 with
  | fault e =>
    simp only [fault_bind]
    intro hc
    rw [fault.inj hc] at h1
    exact prettifyLoop_budget 10 size _ 0 (by omega) (by omega) h1
  | ok r =>
    obtain ⟨sz, ⟨m, e⟩, idx⟩ := r
    simp only [ok_bind]
    rcases rd_cases [66, 107, 77, 71, 84, 80, 69, 90, 89, 0] idx with h | ⟨c, h, _⟩
    · rw [h]; exact oob_ne_fuel
    · rw [h]
      simp only [ok_bind]
      cases h2 : snprintfText out count
          (formatFixed2 m e ++ [32, c, if idx > 0 then 66 else 0]) with
      | fault e2 =>
        simp only [fault_bind]
        intro hc
        rw [fault.inj hc] at h2
        exact snprintfText_ne_fuel _ _ _ h2
      | ok r2 => exact ok_ne_fuel _

theorem strlcatCopy_budget (src : List Int) :
    ∀ (fuel : Nat) (dst : List Int) (dd nn s : Nat), 0 < fuel → src.length < fuel + s →
      strlcatCopy src fuel dst dd nn s ≠ fault Fault.fuel := by
  intro fuel
  induction fuel with
  | zero => intro dst dd nn s h; omega
  | succ f ih =>
    intro dst dd nn s _ hfuel
    rw [strlcatCopy]
    rcases rd_cases src s with h | ⟨c, h, hlt⟩
    · rw [h]; exact oob_ne_fuel
    · rw [h]
      simp only [ok_bind]
      split
      · split
        · unfold wr
          split
          · simp only [ok_bind]
            exact ih _ _ _ _ (by omega) (by omega)
          · exact oob_ne_fuel
        · exact ih _ _ _ _ (by omega) (by omega)
      · exact ok_ne_fuel _

/-- `strlcat` never exhausts the budget of its second loop. -/
theorem strlcat_ne_fuel (dst src : List Int) (siz : Nat) :
    strlcat dst src siz ≠ fault Fault.fuel := by
  unfold strlcat
  cases h1 : strlcatFind dst siz 0 with
  | fault e =>
    simp only [fault_bind]
    intro hc
    rw [fault.inj hc, strlcatFind_eq_strnlenLoop] at h1
    exact strnlenLoop_ne_fuel _ _ _ h1
  | ok dlen =>
    simp only [ok_bind]
    split
    · cases h2 : strnlen src SIZE_MAX with
      | fault e =>
        simp only [fault_bind]
        intro hc
        rw [fault.inj hc] at h2
        exact strnlenLoop_ne_fuel _ _ _ h2
      | ok slen => exact ok_ne_fuel _
    · cases h3 : strlcatCopy src (src.length + 1) dst dlen (siz - dlen) 0 with
      | fault e =>
        simp only [fault_bind]
        intro hc
        rw [fault.inj hc] at h3
        exact strlcatCopy_budget src (src.length + 1) dst dlen (siz - dlen) 0
          (Nat.succ_pos _) (by omega) h3
      | ok r =>
        obtain ⟨dst1, dd, s⟩ := r
        simp only [ok_bind]
        unfold wr
        split
        · exact ok_ne_fuel _
        · exact oob_ne_fuel

end bx
